import Mathlib

/-!
# dp-search-query: the response transformer

A shallow embedding of `transformer/transformer.go` and proofs about it.

Go strings are byte sequences: `len`, slicing and `strings.Index` all count
bytes.  A string is modelled as the list of its bytes.
-/

namespace Transformer

/-- A Go `string`: its bytes, in order. -/
abbrev GoString := List UInt8

/-- The bytes of an ASCII literal (every character of the literals used here is
below 128, so this is its UTF-8 encoding). -/
def ascii (s : String) : GoString := s.toList.map (fun c => UInt8.ofNat c.toNat)

/-- Source: `const startHighlightTag string = "<strong>"`. -/
def startHighlightTag : GoString := ascii "<strong>"

/-- Source: `const endHighlightTag string = "</strong>"`. -/
def endHighlightTag : GoString := ascii "</strong>"

/-- Go's `strings.Index(s, substr)`: the byte index of the first instance of
`substr` in `s`; `none` stands for the result `-1` (no instance). -/
def stringsIndex (s substr : GoString) : Option Nat :=
  match s with
  | [] => if substr.isPrefixOf [] then some 0 else none
  | c :: cs =>
    if substr.isPrefixOf (c :: cs) then some 0
    else (stringsIndex cs substr).map (· + 1)

/-- Source: `type matchDetails struct { Value string; Start int; End int }`. -/
structure matchDetails where
  Value : GoString
  Start : Int
  End : Int
deriving DecidableEq, Repr

/-- Source: `func findMatches(s string) ([]matchDetails, string)`.
The returned slice `md` is made non-nil by `make`, so it is modelled by the
list of its elements.  Offsets are bounded by `len(s)`, so Go's `int`
arithmetic on them does not wrap. -/
def findMatches (s : GoString) : List matchDetails × GoString :=
  match hstart : stringsIndex s startHighlightTag with
  | some start =>
    let left := s.take start
    let right := s.drop (start + startHighlightTag.length)
    match stringsIndex right endHighlightTag with
    | some «end» =>
      let mid := right.take «end»
      let remain := right.drop («end» + endHighlightTag.length)
      let md : List matchDetails :=
        [{ Value := [], Start := (start : Int) + 1, End := (start : Int) + («end» : Int) }]
      let r := findMatches remain
      let md := r.1.foldl
        (fun md rm =>
          md ++ [{ rm with
            Start := rm.Start + ((left.length : Int) + (mid.length : Int)),
            End := rm.End + ((left.length : Int) + (mid.length : Int)) }])
        md
      (md, left ++ (mid ++ r.2))
    | none => ([], left ++ right)
  | none => ([], s)
termination_by s.length
decreasing_by
  cases s with
  | nil =>
    have hnone : stringsIndex [] startHighlightTag = none := by decide
    rw [hnone] at hstart
    cases hstart
  | cons c cs =>
    have hlen : startHighlightTag.length = 8 := by decide
    simp only [List.length_drop, List.length_cons]
    omega

/-! ## Data model -/

/-- A Go slice value: `nil` is the nil slice, `of xs` a non-nil slice holding
`xs`.  (Slices that the code only ranges over, indexes or measures with `len`
are modelled by the plain list of their elements.) -/
inductive Slice (α : Type) where
  | nil : Slice α
  | of (elems : List α) : Slice α
deriving DecidableEq, Repr

/-- The elements of a slice (`nil` has none). -/
def Slice.toList {α : Type} : Slice α → List α
  | .nil => []
  | .of xs => xs

/-- Go's `append(s, x)`: the result is never nil. -/
def Slice.append {α : Type} (s : Slice α) (x : α) : Slice α :=
  .of (s.toList ++ [x])

/-- Go's `append(s, xs...)`: with no element to add, `s` comes back as it is
(a nil slice stays nil). -/
def Slice.appendAll {α : Type} (s : Slice α) (xs : List α) : Slice α :=
  match xs with
  | [] => s
  | x :: rest => .of (s.toList ++ x :: rest)

/-- Go's `int` on a 64-bit platform: addition wraps around in two's complement. -/
def wrapInt (x : Int) : Int := (x + 2 ^ 63) % 2 ^ 64 - 2 ^ 63

/-- Source: `type contentType struct`. -/
structure contentType where
  «Type» : GoString
  Count : Int
deriving DecidableEq, Repr

/-- Source: `type contact struct`. -/
structure contact where
  Name : GoString
  Telephone : GoString
  Email : GoString
deriving DecidableEq, Repr

/-- Source: `type description struct` (pointer fields are `Option`). -/
structure description where
  Contact : Option contact
  DatasetID : GoString
  Edition : GoString
  Headline1 : GoString
  Headline2 : GoString
  Headline3 : GoString
  Keywords : Option (Slice GoString)
  LatestRelease : Option Bool
  Language : GoString
  MetaDescription : GoString
  NationalStatistic : Option Bool
  NextRelease : GoString
  PreUnit : GoString
  ReleaseDate : GoString
  Source : GoString
  Summary : GoString
  Title : GoString
  Unit : GoString
deriving DecidableEq, Repr

/-- Source: the anonymous struct `matches.Description`; each field is a
`*[]matchDetails`. -/
structure matchesDescription where
  Summary : Option (Slice matchDetails)
  Title : Option (Slice matchDetails)
  Edition : Option (Slice matchDetails)
  MetaDescription : Option (Slice matchDetails)
  Keywords : Option (Slice matchDetails)
  DatasetID : Option (Slice matchDetails)
deriving DecidableEq, Repr

/-- Source: `type matches struct`. -/
structure «matches» where
  Description : matchesDescription
deriving DecidableEq, Repr

/-- Source: `type contentItem struct`. -/
structure contentItem where
  Description : description
  «Type» : GoString
  URI : GoString
  Matches : Option «matches»
deriving DecidableEq, Repr

/-- Source: `type searchResponse struct`. -/
structure searchResponse where
  Count : Int
  Took : Int
  ContentTypes : Slice contentType
  Items : Slice contentItem
  Suggestions : Slice GoString
  AdditionSuggestions : Slice GoString
deriving DecidableEq, Repr

/-- Source: the anonymous struct `esSourceDocument.Description`. -/
structure esSourceDescription where
  Summary : GoString
  NextRelease : GoString
  Unit : GoString
  Keywords : Option (Slice GoString)
  ReleaseDate : GoString
  Edition : GoString
  LatestRelease : Option Bool
  Language : GoString
  Contact : Option contact
  DatasetID : GoString
  Source : GoString
  Title : GoString
  MetaDescription : GoString
  NationalStatistic : Option Bool
  PreUnit : GoString
  Headline1 : GoString
  Headline2 : GoString
  Headline3 : GoString
deriving DecidableEq, Repr

/-- Source: `type esSourceDocument struct`. -/
structure esSourceDocument where
  Description : esSourceDescription
  «Type» : GoString
  URI : GoString
deriving DecidableEq, Repr

/-- Source: `type esHighlight struct`; each field is a `*[]string`, ranged
over when it is not nil. -/
structure esHighlight where
  DescriptionTitle : Option (List GoString)
  DescriptionEdition : Option (List GoString)
  DescriptionSummary : Option (List GoString)
  DescriptionMeta : Option (List GoString)
  DescriptionKeywords : Option (List GoString)
  DescriptionDatasetID : Option (List GoString)
deriving DecidableEq, Repr

/-- Source: `type esResponseHit struct`. -/
structure esResponseHit where
  Source : esSourceDocument
  Highlight : esHighlight
deriving DecidableEq, Repr

/-- Source: `type esResponseHits struct`. -/
structure esResponseHits where
  Total : Int
  Hits : List esResponseHit
deriving DecidableEq, Repr

/-- Source: `type esBucket struct`. -/
structure esBucket where
  Key : GoString
  Count : Int
deriving DecidableEq, Repr

/-- Source: the anonymous struct `esResponseAggregations.DocCounts`. -/
structure esDocCounts where
  Buckets : List esBucket
deriving DecidableEq, Repr

/-- Source: `type esResponseAggregations struct`. -/
structure esResponseAggregations where
  DocCounts : esDocCounts
deriving DecidableEq, Repr

/-- Source: `type esSearchSuggestOptions struct`. -/
structure esSearchSuggestOptions where
  Text : GoString
deriving DecidableEq, Repr

/-- Source: `type esSearchSuggest struct`. -/
structure esSearchSuggest where
  Options : List esSearchSuggestOptions
deriving DecidableEq, Repr

/-- Source: `type esSuggest struct`. -/
structure esSuggest where
  SearchSuggest : List esSearchSuggest
deriving DecidableEq, Repr

/-- Source: `type esResponseItem struct`. -/
structure esResponseItem where
  Took : Int
  Hits : esResponseHits
  Aggregations : esResponseAggregations
  Suggest : esSuggest
deriving DecidableEq, Repr

/-- Source: `type esResponse struct`. -/
structure esResponse where
  Responses : List esResponseItem
deriving DecidableEq, Repr

/-! ## Builders -/

/-- Source: `func buildContentTypes(bucket esBucket) contentType`. -/
def buildContentTypes (bucket : esBucket) : contentType :=
  { «Type» := bucket.Key, Count := bucket.Count }

/-- Source: `func buildDescription(doc esResponseHit) description`. -/
def buildDescription (doc : esResponseHit) : description :=
  let sd := doc.Source.Description
  { Summary := sd.Summary
    NextRelease := sd.NextRelease
    Unit := sd.Unit
    PreUnit := sd.PreUnit
    Keywords := sd.Keywords
    ReleaseDate := sd.ReleaseDate
    Edition := sd.Edition
    LatestRelease := sd.LatestRelease
    Language := sd.Language
    Contact := sd.Contact
    DatasetID := sd.DatasetID
    Source := sd.Source
    Title := sd.Title
    MetaDescription := sd.MetaDescription
    NationalStatistic := sd.NationalStatistic
    Headline1 := sd.Headline1
    Headline2 := sd.Headline2
    Headline3 := sd.Headline3 }

/-- The loop shared by five fields of `buildMatches`:
`var ms []matchDetails; for _, m := range *highlights { found, _ := findMatches(m); ms = append(ms, found...) }`. -/
def collectMatches (highlights : List GoString) : Slice matchDetails :=
  highlights.foldl (fun ms m => ms.appendAll (findMatches m).1) .nil

/-- The keywords loop of `buildMatches`: every span found in a fragment gets
the de-marked fragment as its `Value` before it is appended. -/
def collectKeywordMatches (highlights : List GoString) : Slice matchDetails :=
  highlights.foldl
    (fun ms m =>
      let found := findMatches m
      found.1.foldl (fun ms md => ms.append { md with Value := found.2 }) ms)
    .nil

/-- Source: `func buildMatches(hl esHighlight) *matches`.  The result is the
struct the returned pointer refers to (the pointer is never nil). -/
def buildMatches (hl : esHighlight) : «matches» :=
  { Description :=
    { Title := hl.DescriptionTitle.map collectMatches
      Edition := hl.DescriptionEdition.map collectMatches
      Summary := hl.DescriptionSummary.map collectMatches
      MetaDescription := hl.DescriptionMeta.map collectMatches
      Keywords := hl.DescriptionKeywords.map collectKeywordMatches
      DatasetID := hl.DescriptionDatasetID.map collectMatches } }

/-- Source: `func buildContentItem(doc esResponseHit) contentItem`. -/
def buildContentItem (doc : esResponseHit) : contentItem :=
  { Description := buildDescription doc
    «Type» := doc.Source.«Type»
    URI := doc.Source.URI
    Matches := some (buildMatches doc.Highlight) }

/-- The body of the loop `for _, response := range source.Responses` in
`transform`, on the pair of the response under construction and `took`. -/
def transformStep (acc : searchResponse × Int) (response : esResponseItem) :
    searchResponse × Int :=
  let sr := acc.1
  let took := acc.2
  let sr := response.Hits.Hits.foldl
    (fun sr doc => { sr with Items := sr.Items.append (buildContentItem doc) }) sr
  let sr := response.Aggregations.DocCounts.Buckets.foldl
    (fun sr bucket => { sr with ContentTypes := sr.ContentTypes.append (buildContentTypes bucket) }) sr
  let sr := response.Suggest.SearchSuggest.foldl
    (fun sr suggest =>
      suggest.Options.foldl
        (fun sr option => { sr with Suggestions := sr.Suggestions.append option.Text }) sr)
    sr
  (sr, wrapInt (took + response.Took))

/-- Source: `func transform(source *esResponse) searchResponse`.
`none` stands for the run-time panic of `source.Responses[0]` on an empty
list. -/
def transform (source : esResponse) : Option searchResponse :=
  match source.Responses[0]? with
  | none => none
  | some first =>
    let sr : searchResponse :=
      { Count := first.Hits.Total
        Took := 0
        Items := .of []
        ContentTypes := .of []
        Suggestions := .nil
        AdditionSuggestions := .nil }
    let acc := source.Responses.foldl transformStep (sr, 0)
    some { acc.1 with Took := acc.2 }

/-! ## The fallback tokenizer -/

/-- The fragment of Go's regular-expression syntax that the pattern of
`buildAdditionalSuggestionList` uses: a byte class, concatenation,
alternation, and the greedy star of a byte class. -/
inductive Regex where
  | cls (p : UInt8 → Bool) : Regex
  | cat (a b : Regex) : Regex
  | alt (a b : Regex) : Regex
  | star (p : UInt8 → Bool) : Regex

/-- The lengths of the prefixes of `s` that a backtracking matcher finds for
the pattern, in the order it finds them (first alternative first, greedy
repetition longest first).  Go's `regexp` returns, among the matches that
begin at a position, the one a backtracking search finds first. -/
def Regex.matchLens : Regex → GoString → List Nat
  | .cls p, s =>
    match s with
    | [] => []
    | c :: _ => if p c then [1] else []
  | .cat a b, s =>
    (a.matchLens s).flatMap (fun n => (b.matchLens (s.drop n)).map (n + ·))
  | .alt a b, s => a.matchLens s ++ b.matchLens s
  | .star p, s => (List.range ((s.takeWhile p).length + 1)).reverse

/-- The byte of the double quote. -/
def quoteByte : UInt8 := 34

/-- Go's perl class `\s`: tab, newline, form feed, carriage return, space. -/
def isSpace (c : UInt8) : Bool :=
  c == 9 || c == 10 || c == 12 || c == 13 || c == 32

/-- The pattern of the source, `"[^"]*"|\S+`.  Its delimiters are ASCII
bytes, which never occur inside a multi-byte UTF-8 sequence, so matching byte
by byte finds the same substrings as matching rune by rune. -/
def regex : Regex :=
  .alt
    (.cat (.cls (· == quoteByte))
      (.cat (.star (· != quoteByte)) (.cls (· == quoteByte))))
    (.cat (.cls (fun c => !isSpace c)) (.star (fun c => !isSpace c)))

/-- Go's `FindAllStringSubmatch(s, -1)` for a pattern without capture groups
that matches no empty string: the successive leftmost non-overlapping
matches, each as the one-element list holding the whole match.  `skip` counts
the bytes still covered by the previous match. -/
def findAllStringSubmatch (re : Regex) : GoString → Nat → List (List GoString)
  | [], _ => []
  | _ :: cs, skip + 1 => findAllStringSubmatch re cs skip
  | c :: cs, 0 =>
    match (re.matchLens (c :: cs)).head? with
    | some (n + 1) => [(c :: cs).take (n + 1)] :: findAllStringSubmatch re cs n
    | _ => findAllStringSubmatch re cs 0

/-- Source: `func buildAdditionalSuggestionList(query string) []string`. -/
def buildAdditionalSuggestionList (query : GoString) : Slice GoString :=
  (findAllStringSubmatch regex query 0).foldl
    (fun queryTerms m => queryTerms.append (m.getD 0 []))
    (.of [])

/-! ## The entry point -/

/-- An error value as `github.com/pkg/errors` builds it: `errors.New(msg)` or
`errors.Wrap(cause, msg)`. -/
inductive GoError where
  | new (msg : String) : GoError
  | wrap (cause : GoError) (msg : String) : GoError
deriving DecidableEq, Repr

/-- What a call of `TransformSearchResponse` does: return `(data, nil)`,
return `(nil, err)`, or panic. -/
inductive Outcome where
  | ok (data : GoString) : Outcome
  | err (e : GoError) : Outcome
  | panic : Outcome
deriving DecidableEq, Repr

/-- Source: `func (t *Transformer) TransformSearchResponse(ctx, responseData, query)`.
`jsonUnmarshal` and `jsonMarshal` are the calls into `encoding/json`, taken as
parameters; `ctx` is not used by the source. -/
def TransformSearchResponse
    (jsonUnmarshal : GoString → Except GoError esResponse)
    (jsonMarshal : searchResponse → Except GoError GoString)
    (responseData : GoString) (query : GoString) : Outcome :=
  match jsonUnmarshal responseData with
  | .error err => .err (.wrap err "Failed to decode elastic search response")
  | .ok source =>
    if source.Responses.length < 1 then
      .err (.new "Response to be transformed contained 0 items")
    else
      match transform source with
      | none => .panic
      | some sr =>
        let sr :=
          if sr.Count = 0 then
            { sr with AdditionSuggestions := buildAdditionalSuggestionList query }
          else sr
        match jsonMarshal sr with
        | .error err => .err (.wrap err "Failed to encode transformed response")
        | .ok transformedData => .ok transformedData


/-! ## Notions used to state the properties -/

/-- The shift that `findMatches` applies to a span found in the remainder. -/
def shiftSpan (d : Int) (rm : matchDetails) : matchDetails :=
  { rm with Start := rm.Start + d, End := rm.End + d }

/-- The hits of all sub-responses, in received order. -/
def allHits (rs : List esResponseItem) : List esResponseHit :=
  rs.flatMap (fun r => r.Hits.Hits)

/-- The buckets of all sub-responses, in received order. -/
def allBuckets (rs : List esResponseItem) : List esBucket :=
  rs.flatMap (fun r => r.Aggregations.DocCounts.Buckets)

/-- The suggestion option texts, in sub-response, group, option order. -/
def allOptionTexts (rs : List esResponseItem) : List GoString :=
  rs.flatMap (fun r => r.Suggest.SearchSuggest.flatMap (fun g => g.Options.map (fun o => o.Text)))

/-! ## The JSON encoding of a match record -/

/-- A JSON value as `encoding/json` writes it; the members of an object are in
the order written. -/
inductive Json where
  | null : Json
  | string (s : GoString) : Json
  | number (n : Int) : Json
  | array (elems : List Json) : Json
  | object (members : List (String × Json)) : Json

/-- What `json.Marshal` writes for a `matchDetails`, by its field tags:
`value` has `omitempty` and is left out when the string is empty; `start` and
`end` are always written. -/
def marshalMatchDetails (md : matchDetails) : Json :=
  .object
    ((if md.Value = [] then [] else [("value", .string md.Value)]) ++
      [("start", .number md.Start), ("end", .number md.End)])

/-- What `json.Marshal` writes for a `*[]matchDetails`: `null` for a nil
pointer and for a pointer to a nil slice, an array otherwise. -/
def marshalSpans : Option (Slice matchDetails) → Json
  | none => .null
  | some .nil => .null
  | some (.of elems) => .array (elems.map marshalMatchDetails)

/-- The members that `json.Marshal` writes for a `*[]matchDetails` field with the
tag `name`: with `omitempty` a nil pointer is left out; without it the field
is always written. -/
def marshalField (name : String) (omitempty : Bool) (v : Option (Slice matchDetails)) :
    List (String × Json) :=
  if omitempty && v.isNone then [] else [(name, marshalSpans v)]

/-- What `json.Marshal` writes for a `matches` value, by the field tags of the
source: `summary` and `title` carry no `omitempty`, the four other fields
do. -/
def marshalMatches (m : «matches») : Json :=
  .object
    [("description",
      .object
        (marshalField "summary" false m.Description.Summary ++
          marshalField "title" false m.Description.Title ++
          marshalField "edition" true m.Description.Edition ++
          marshalField "meta_description" true m.Description.MetaDescription ++
          marshalField "keywords" true m.Description.Keywords ++
          marshalField "dataset_id" true m.Description.DatasetID))]

/-- The fragment `t0 ++ "<strong>" ++ m1 ++ "</strong>" ++ t1 ++ ... ++ "<strong>" ++ mn ++ "</strong>" ++ tail`,
given as the list of the pairs `(t0, m1), ..., (t(n-1), mn)` and the text
`tail` after the last end marker. -/
def assemble : List (GoString × GoString) → GoString → GoString
  | [], tail => tail
  | (t, m) :: rest, tail =>
    t ++ startHighlightTag ++ (m ++ endHighlightTag ++ assemble rest tail)

/-- The same pieces without the markers: `t0 ++ m1 ++ t1 ++ ... ++ mn ++ tail`. -/
def plainText : List (GoString × GoString) → GoString → GoString
  | [], tail => tail
  | (t, m) :: rest, tail => t ++ (m ++ plainText rest tail)

/-- The 0-based byte index at which the matched substring of the pair number
`k` begins in `plainText pieces tail`: the length of all that precedes it. -/
def pieceIndex : List (GoString × GoString) → Nat → Nat
  | [], _ => 0
  | (t, _) :: _, 0 => t.length
  | (t, m) :: rest, k + 1 => t.length + m.length + pieceIndex rest k

/-- The maximal runs of non-whitespace bytes of `s`, from left to right: `s`
split at every whitespace byte, without the empty pieces. -/
def nonSpaceRuns (s : GoString) : List GoString :=
  (s.splitOnP isSpace).filter (fun t => !t.isEmpty)

/-- The text `g1 ++ tok1 ++ g2 ++ tok2 ++ ... ++ gn ++ tokn ++ last`, given as
the pairs `(gi, toki)` of a gap and the token after it, and the last gap. -/
def joinGaps : List (GoString × GoString) → GoString → GoString
  | [], last => last
  | (g, tok) :: rest, last => g ++ (tok ++ joinGaps rest last)

/-- The byte `<`, with which both markers begin. -/
def openAngle : UInt8 := 60

/-! ## `strings.Index` -/

theorem stringsIndex_eq_none_iff (s substr : GoString) :
    stringsIndex s substr = none ↔ ¬ substr <:+: s := by
  induction s with
  | nil =>
    unfold stringsIndex
    cases substr with
    | nil => simp
    | cons a t => simp [List.isPrefixOf]
  | cons c cs ih =>
    unfold stringsIndex
    rw [List.infix_cons_iff]
    by_cases hp : substr.isPrefixOf (c :: cs) = true
    · simp [hp, List.isPrefixOf_iff_prefix.mp hp]
    · have hp2 : ¬ substr <+: c :: cs := fun h => hp (List.isPrefixOf_iff_prefix.mpr h)
      simp only [hp, if_false, Option.map_eq_none', ih, hp2, false_or, Bool.false_eq_true]

theorem stringsIndex_eq_some_iff (s substr : GoString) (i : Nat) :
    stringsIndex s substr = some i ↔
      i ≤ s.length ∧ substr <+: s.drop i ∧ ∀ k, k < i → ¬ substr <+: s.drop k := by
  induction s generalizing i with
  | nil =>
    unfold stringsIndex
    cases substr with
    | nil =>
      simp
      constructor
      · rintro rfl; simp
      · rintro ⟨h, _⟩; exact h.symm
    | cons a t => simp [List.isPrefixOf]
  | cons c cs ih =>
    unfold stringsIndex
    by_cases hp : substr.isPrefixOf (c :: cs) = true
    · have hp1 := List.isPrefixOf_iff_prefix.mp hp
      simp only [hp, if_true, Option.some.injEq]
      constructor
      · rintro rfl
        simp [hp1]
      · rintro ⟨_, _, h3⟩
        by_contra hne
        exact h3 0 (Nat.pos_of_ne_zero (fun h => hne h.symm)) (by simpa using hp1)
    · have hp2 : ¬ substr <+: c :: cs := fun h => hp (List.isPrefixOf_iff_prefix.mpr h)
      simp only [hp, if_false, Bool.false_eq_true, Option.map_eq_some']
      constructor
      · rintro ⟨j, hj, rfl⟩
        obtain ⟨h1, h2, h3⟩ := (ih j).mp hj
        refine ⟨by simpa using h1, by simpa using h2, ?_⟩
        intro k hk
        cases k with
        | zero => simpa using hp2
        | succ k => simpa using h3 k (by omega)
      · rintro ⟨h1, h2, h3⟩
        cases i with
        | zero => exact absurd (by simpa using h2) hp2
        | succ j =>
          refine ⟨j, (ih j).mpr ⟨by simpa using h1, by simpa using h2, ?_⟩, rfl⟩
          intro k hk
          simpa using h3 (k + 1) (by omega)


theorem stringsIndex_split {s substr : GoString} {i : Nat}
    (h : stringsIndex s substr = some i) :
    s = s.take i ++ substr ++ s.drop (i + substr.length) := by
  obtain ⟨_, ⟨t, ht⟩, _⟩ := (stringsIndex_eq_some_iff s substr i).mp h
  have hd : s.drop (i + substr.length) = t := by
    rw [← List.drop_drop, ← ht]
    simp
  rw [hd, List.append_assoc, ht, List.take_append_drop]

/-- A marker whose first byte does not occur again in it cannot start inside
a shorter prefix `u` and run over into a copy of itself. -/
theorem not_prefix_straddle {c : UInt8} {tl u r : GoString}
    (hc : c ∉ tl) (hu : u ≠ []) (hlen : u.length < (c :: tl).length) :
    ¬ (c :: tl) <+: u ++ (c :: tl) ++ r := by
  intro hp
  rw [List.append_assoc] at hp
  have hu2 : u <+: c :: tl :=
    List.prefix_of_prefix_length_le (List.prefix_append u _) hp (Nat.le_of_lt hlen)
  obtain ⟨v, hv⟩ := hu2
  rw [← hv, List.prefix_append_right_inj] at hp
  cases u with
  | nil => exact hu rfl
  | cons x u1 =>
    cases v with
    | nil =>
      have := congrArg List.length hv
      simp at this hlen
      omega
    | cons d v1 =>
      simp only [List.cons_append, List.cons.injEq] at hv
      obtain ⟨rfl, htl⟩ := hv
      simp only [List.cons_append, List.cons_prefix_cons] at hp
      apply hc
      rw [← htl, ← hp.1]
      simp

/-- The first instance of such a marker after a text `a` that does not
contain it is at index `len(a)`. -/
theorem stringsIndex_append_marker {c : UInt8} {tl : GoString} (hc : c ∉ tl)
    (a r : GoString) (ha : ¬ (c :: tl) <:+: a) :
    stringsIndex (a ++ (c :: tl) ++ r) (c :: tl) = some a.length := by
  rw [stringsIndex_eq_some_iff]
  refine ⟨by simp, ?_, ?_⟩
  · rw [List.append_assoc, List.drop_left]
    exact List.prefix_append _ _
  · intro k hk hp
    rw [List.append_assoc, List.drop_append_of_le_length (Nat.le_of_lt hk),
      ← List.append_assoc] at hp
    by_cases hlen : (a.drop k).length < (c :: tl).length
    · refine not_prefix_straddle hc ?_ hlen hp
      intro h0
      have := congrArg List.length h0
      simp at this
      omega
    · rw [List.append_assoc] at hp
      have h1 : (c :: tl) <+: a.drop k :=
        List.prefix_of_prefix_length_le hp (List.prefix_append _ _) (Nat.le_of_not_lt hlen)
      exact ha (h1.isInfix.trans (List.drop_suffix k a).isInfix)

theorem startHighlightTag_eq : startHighlightTag = 60 :: [115, 116, 114, 111, 110, 103, 62] := by
  decide

theorem endHighlightTag_eq : endHighlightTag = 60 :: [47, 115, 116, 114, 111, 110, 103, 62] := by
  decide

theorem stringsIndex_startTag (a r : GoString) (ha : ¬ startHighlightTag <:+: a) :
    stringsIndex (a ++ startHighlightTag ++ r) startHighlightTag = some a.length := by
  rw [startHighlightTag_eq] at ha ⊢
  exact stringsIndex_append_marker (by decide) a r ha

theorem stringsIndex_endTag (m r : GoString) (hm : ¬ endHighlightTag <:+: m) :
    stringsIndex (m ++ endHighlightTag ++ r) endHighlightTag = some m.length := by
  rw [endHighlightTag_eq] at hm ⊢
  exact stringsIndex_append_marker (by decide) m r hm

/-! ## `findMatches` -/

theorem foldl_append_singleton {α β : Type} (f : α → β) (l : List α) (init : List β) :
    l.foldl (fun md rm => md ++ [f rm]) init = init ++ l.map f := by
  induction l generalizing init with
  | nil => simp
  | cons x xs ih => simp [ih]

theorem findMatches_of_none {s : GoString}
    (h : stringsIndex s startHighlightTag = none) : findMatches s = ([], s) := by
  rw [findMatches]
  split
  · rename_i start hstart
    rw [h] at hstart
    cases hstart
  · rfl

theorem findMatches_of_unmatched {s : GoString} {start : Nat}
    (h : stringsIndex s startHighlightTag = some start)
    (h2 : stringsIndex (s.drop (start + startHighlightTag.length)) endHighlightTag = none) :
    findMatches s = ([], s.take start ++ s.drop (start + startHighlightTag.length)) := by
  rw [findMatches]
  split
  · rename_i start2 hstart
    rw [h] at hstart
    cases hstart
    simp only [h2]
  · rename_i hstart
    rw [h] at hstart
    cases hstart

theorem findMatches_of_matched {s : GoString} {start e : Nat}
    (h : stringsIndex s startHighlightTag = some start)
    (h2 : stringsIndex (s.drop (start + startHighlightTag.length)) endHighlightTag = some e) :
    findMatches s =
      ({ Value := [], Start := (start : Int) + 1, End := (start : Int) + (e : Int) } ::
          (findMatches ((s.drop (start + startHighlightTag.length)).drop
              (e + endHighlightTag.length))).1.map
            (shiftSpan (((s.take start).length : Int) +
              (((s.drop (start + startHighlightTag.length)).take e).length : Int))),
        s.take start ++ ((s.drop (start + startHighlightTag.length)).take e ++
          (findMatches ((s.drop (start + startHighlightTag.length)).drop
              (e + endHighlightTag.length))).2)) := by
  rw [findMatches]
  split
  · rename_i start2 hstart
    rw [h] at hstart
    cases hstart
    simp only [h2, foldl_append_singleton]
    rfl
  · rename_i hstart
    rw [h] at hstart
    cases hstart


theorem findMatches_marked (a m b : GoString)
    (ha : ¬ startHighlightTag <:+: a) (hm : ¬ endHighlightTag <:+: m) :
    findMatches (a ++ startHighlightTag ++ (m ++ endHighlightTag ++ b)) =
      ({ Value := [], Start := (a.length : Int) + 1,
         End := (a.length : Int) + (m.length : Int) } ::
          (findMatches b).1.map (shiftSpan ((a.length : Int) + (m.length : Int))),
        a ++ (m ++ (findMatches b).2)) := by
  have h1 := stringsIndex_startTag a (m ++ endHighlightTag ++ b) ha
  have hd : (a ++ startHighlightTag ++ (m ++ endHighlightTag ++ b)).drop
      (a.length + startHighlightTag.length) = m ++ endHighlightTag ++ b := by
    rw [← List.length_append, List.drop_left]
  have h2 := stringsIndex_endTag m b hm
  rw [← hd] at h2
  rw [findMatches_of_matched h1 h2, hd]
  have ht : (a ++ startHighlightTag ++ (m ++ endHighlightTag ++ b)).take a.length = a := by
    rw [List.append_assoc, List.take_left]
  have hm2 : (m ++ endHighlightTag ++ b).take m.length = m := by
    rw [List.append_assoc, List.take_left]
  have hb : (m ++ endHighlightTag ++ b).drop (m.length + endHighlightTag.length) = b := by
    rw [← List.length_append, List.drop_left]
  rw [ht, hm2, hb]

/-- C1: when the first start marker of `s` is at index `len(left)`, `right`
is the text after it, and the first end marker of `right` splits it into
`mid` and `remainder`, `findMatches s` is the span
`{Start: len(left)+1, End: len(left)+len(mid)}` followed by the spans of
`findMatches remainder` shifted by `len(left)+len(mid)`, in order, with the
text `left ++ mid ++` the de-marked text of `remainder`. -/
theorem findMatches_recursive (s left right mid remainder : GoString)
    (hs : s = left ++ startHighlightTag ++ right)
    (hstart : stringsIndex s startHighlightTag = some left.length)
    (hr : right = mid ++ endHighlightTag ++ remainder)
    (hend : stringsIndex right endHighlightTag = some mid.length) :
    findMatches s =
      ({ Value := [], Start := (left.length : Int) + 1,
         End := (left.length : Int) + (mid.length : Int) } ::
          (findMatches remainder).1.map
            (fun rm => { rm with
              Start := rm.Start + ((left.length : Int) + (mid.length : Int)),
              End := rm.End + ((left.length : Int) + (mid.length : Int)) }),
        left ++ mid ++ (findMatches remainder).2) := by
  have hd : s.drop (left.length + startHighlightTag.length) = right := by
    rw [hs, ← List.length_append, List.drop_left]
  have h2 : stringsIndex (s.drop (left.length + startHighlightTag.length)) endHighlightTag
      = some mid.length := by rw [hd]; exact hend
  rw [findMatches_of_matched hstart h2, hd]
  have ht : s.take left.length = left := by
    rw [hs, List.append_assoc, List.take_left]
  have hm2 : right.take mid.length = mid := by
    rw [hr, List.append_assoc, List.take_left]
  have hb : right.drop (mid.length + endHighlightTag.length) = remainder := by
    rw [hr, ← List.length_append, List.drop_left]
  rw [ht, hm2, hb, List.append_assoc]
  rfl

/-- C1 at `s = "ab<strong>cd</strong>e<strong>f</strong>"`. -/
theorem findMatches_recursive_witness :
    findMatches (ascii "ab<strong>cd</strong>e<strong>f</strong>") =
      ({ Value := [], Start := 3, End := 4 } ::
          (findMatches (ascii "e<strong>f</strong>")).1.map
            (fun rm => { rm with Start := rm.Start + (2 + 2), End := rm.End + (2 + 2) }),
        ascii "ab" ++ ascii "cd" ++ (findMatches (ascii "e<strong>f</strong>")).2) :=
  findMatches_recursive (ascii "ab<strong>cd</strong>e<strong>f</strong>")
    (ascii "ab") (ascii "cd</strong>e<strong>f</strong>") (ascii "cd")
    (ascii "e<strong>f</strong>") (by decide) (by decide) (by decide) (by decide)


theorem findMatches_of_no_start (s : GoString) (h : ¬ startHighlightTag <:+: s) :
    findMatches s = ([], s) :=
  findMatches_of_none ((stringsIndex_eq_none_iff s startHighlightTag).mpr h)

theorem findMatches_one_span (a m b : GoString)
    (ha : ¬ startHighlightTag <:+: a) (hb : ¬ startHighlightTag <:+: b)
    (hm : ¬ endHighlightTag <:+: m) :
    findMatches (a ++ startHighlightTag ++ m ++ endHighlightTag ++ b) =
      ([{ Value := [], Start := (a.length : Int) + 1,
          End := (a.length : Int) + (m.length : Int) }],
        a ++ m ++ b) := by
  have h := findMatches_marked a m b ha hm
  rw [findMatches_of_no_start b hb] at h
  simp only [List.append_assoc] at h ⊢
  exact h

/-- C3: a fragment that does not contain the start marker comes back
unchanged, with an empty span list. -/
theorem findMatches_no_marker (s : GoString) (h : ¬ startHighlightTag <:+: s) :
    findMatches s = ([], s) :=
  findMatches_of_none ((stringsIndex_eq_none_iff s startHighlightTag).mpr h)

/-- C3 at the fragment `"plain </strong> text"`. -/
theorem findMatches_no_marker_witness :
    ¬ startHighlightTag <:+: ascii "plain </strong> text" ∧
      findMatches (ascii "plain </strong> text") = ([], ascii "plain </strong> text") :=
  ⟨by decide, findMatches_no_marker (ascii "plain </strong> text") (by decide)⟩

/-- C2: for `a ++ "<strong>" ++ m ++ "</strong>" ++ b` with no start marker
in `a` and `b` and no end marker in `m`, `findMatches` returns the text
`a ++ m ++ b` and the single span `{Start: len(a)+1, End: len(a)+len(m)}`. -/
theorem findMatches_single (a m b : GoString)
    (ha : ¬ startHighlightTag <:+: a) (hb : ¬ startHighlightTag <:+: b)
    (hm : ¬ endHighlightTag <:+: m) :
    findMatches (a ++ startHighlightTag ++ m ++ endHighlightTag ++ b) =
      ([{ Value := [], Start := (a.length : Int) + 1,
          End := (a.length : Int) + (m.length : Int) }],
        a ++ m ++ b) := by
  have h := findMatches_marked a m b ha hm
  rw [findMatches_of_no_start b hb] at h
  simp only [List.append_assoc] at h ⊢
  rw [h]
  rfl

/-- C2 at `"abc<strong>def</strong>ghi"`: the text `"abcdefghi"` and the single
span `{Start: 4, End: 6}`. -/
theorem findMatches_single_witness :
    findMatches (ascii "abc<strong>def</strong>ghi") =
      ([{ Value := [], Start := 4, End := 6 }], ascii "abcdefghi") :=
  findMatches_single (ascii "abc") (ascii "def") (ascii "ghi")
    (by decide) (by decide) (by decide)

/-- C4 as stated fails: `findMatches("<strong>abc")` returns the text `"abc"`,
without the unmatched start marker. -/
theorem findMatches_unmatched_counterexample :
    findMatches (ascii "<strong>abc") = ([], ascii "abc") ∧
      findMatches (ascii "<strong>abc") ≠ ([], ascii "<strong>abc") ∧
      ¬ startHighlightTag <:+: (findMatches (ascii "<strong>abc")).2 := by
  have h : findMatches (ascii "<strong>abc") = ([], ascii "abc") :=
    @findMatches_of_unmatched (ascii "<strong>abc") 0 (by decide) (by decide)
  rw [h]
  decide

/-- C4, amended: when the first start marker (after `left`) is not followed by
an end marker, `findMatches` records no span and returns the text with that
start marker removed, `left ++ right`. -/
theorem findMatches_unmatched (left right : GoString)
    (hl : ¬ startHighlightTag <:+: left) (hr : ¬ endHighlightTag <:+: right) :
    findMatches (left ++ startHighlightTag ++ right) = ([], left ++ right) := by
  have h1 := stringsIndex_startTag left right hl
  have hd : (left ++ startHighlightTag ++ right).drop
      (left.length + startHighlightTag.length) = right := by
    rw [← List.length_append, List.drop_left]
  have h2 : stringsIndex ((left ++ startHighlightTag ++ right).drop
      (left.length + startHighlightTag.length)) endHighlightTag = none := by
    rw [hd]; exact (stringsIndex_eq_none_iff right endHighlightTag).mpr hr
  rw [findMatches_of_unmatched h1 h2, hd, List.append_assoc, List.take_left]

/-- C4, amended, at `"ab<strong>cd"`. -/
theorem findMatches_unmatched_witness :
    findMatches (ascii "ab<strong>cd") = ([], ascii "abcd") :=
  findMatches_unmatched (ascii "ab") (ascii "cd") (by decide) (by decide)

/-- The spans of `findMatches t` are empty exactly when `t` has no start marker
that is followed by an end marker. -/
theorem findMatches_spans_eq_nil_iff (t : GoString) :
    (findMatches t).1 = [] ↔
      ¬ ∃ a m b, t = a ++ startHighlightTag ++ m ++ endHighlightTag ++ b := by
  cases h1 : stringsIndex t startHighlightTag with
  | none =>
    rw [findMatches_of_none h1]
    simp only [true_iff]
    rintro ⟨a, m, b, rfl⟩
    apply (stringsIndex_eq_none_iff _ _).mp h1
    exact ⟨a, m ++ endHighlightTag ++ b, by simp⟩
  | some i =>
    cases h2 : stringsIndex (t.drop (i + startHighlightTag.length)) endHighlightTag with
    | none =>
      rw [findMatches_of_unmatched h1 h2]
      simp only [true_iff]
      rintro ⟨a, m, b, rfl⟩
      apply (stringsIndex_eq_none_iff _ _).mp h2
      obtain ⟨_, _, hfirst⟩ := (stringsIndex_eq_some_iff _ _ _).mp h1
      have hia : i ≤ a.length := by
        by_contra hlt
        apply hfirst a.length (by omega)
        simp only [List.append_assoc, List.drop_left]
        exact List.prefix_append _ _
      have hle : i + startHighlightTag.length ≤ (a ++ startHighlightTag ++ m).length := by
        simp only [List.length_append]
        omega
      rw [List.append_assoc _ endHighlightTag b, List.drop_append_of_le_length hle]
      exact ⟨(a ++ startHighlightTag ++ m).drop (i + startHighlightTag.length), b,
        by simp only [List.append_assoc]⟩
    | some e =>
      rw [findMatches_of_matched h1 h2]
      simp only [reduceCtorEq, false_iff, not_not]
      refine ⟨t.take i, (t.drop (i + startHighlightTag.length)).take e,
        (t.drop (i + startHighlightTag.length)).drop (e + endHighlightTag.length), ?_⟩
      have e1 := stringsIndex_split h1
      have e2 := stringsIndex_split h2
      rw [List.append_assoc, List.append_assoc, ← List.append_assoc _ endHighlightTag, ← e2]
      exact e1

/-- C5 as stated fails: the de-marked text of the nested fragment
`"<strong><strong>a</strong></strong>"` is `"<strong>a</strong>"`, and
extracting again finds the span `{Start: 1, End: 1}`. -/
theorem findMatches_again_counterexample :
    (findMatches (ascii "<strong><strong>a</strong></strong>")).2 = ascii "<strong>a</strong>" ∧
      (findMatches (findMatches (ascii "<strong><strong>a</strong></strong>")).2).1 =
        [{ Value := [], Start := 1, End := 1 }] := by
  have h1 : findMatches (ascii "<strong><strong>a</strong></strong>") =
      ([{ Value := [], Start := 1, End := 9 }], ascii "<strong>a</strong>") :=
    findMatches_one_span [] (ascii "<strong>a") (ascii "</strong>")
      (by decide) (by decide) (by decide)
  have h2 : findMatches (ascii "<strong>a</strong>") =
      ([{ Value := [], Start := 1, End := 1 }], ascii "a") :=
    findMatches_one_span [] (ascii "a") [] (by decide) (by decide) (by decide)
  rw [h1]
  exact ⟨rfl, by rw [h2]⟩

/-- The same happens without nesting, when removing marker pairs joins the
surrounding text into new markers:
`"<str<strong></strong>ong>x</<strong></strong>strong>"` de-marks to
`"<strong>x</strong>"`. -/
theorem findMatches_again_joined :
    findMatches (ascii "<str<strong></strong>ong>x</<strong></strong>strong>") =
        ([{ Value := [], Start := 5, End := 4 }, { Value := [], Start := 12, End := 11 }],
          ascii "<strong>x</strong>") ∧
      findMatches (ascii "<strong>x</strong>") =
        ([{ Value := [], Start := 1, End := 1 }], ascii "x") := by
  have h3 : findMatches (ascii "ong>x</<strong></strong>strong>") =
      ([{ Value := [], Start := 8, End := 7 }], ascii "ong>x</strong>") :=
    findMatches_one_span (ascii "ong>x</") [] (ascii "strong>")
      (by decide) (by decide) (by decide)
  have h1 := findMatches_marked (ascii "<str") [] (ascii "ong>x</<strong></strong>strong>")
    (by decide) (by decide)
  rw [h3] at h1
  exact ⟨h1, findMatches_one_span [] (ascii "x") [] (by decide) (by decide) (by decide)⟩

/-! ## The fallback tokenizer -/

theorem matchLens_star (p : UInt8 → Bool) (s : GoString) :
    (Regex.star p).matchLens s =
      (s.takeWhile p).length :: (List.range (s.takeWhile p).length).reverse := by
  simp only [Regex.matchLens]
  rw [List.range_succ, List.reverse_append]
  rfl

/-- At a byte that is not a quote the pattern matches the longest run of
non-whitespace bytes, if the byte is not whitespace. -/
theorem matchLens_head_nonquote (c : UInt8) (s : GoString) (hc : c ≠ quoteByte) :
    (regex.matchLens (c :: s)).head? =
      if isSpace c then none
      else some (1 + (s.takeWhile (fun c => !isSpace c)).length) := by
  have hq : (c == quoteByte) = false := by simpa using hc
  have hA : (Regex.cls (· == quoteByte)).matchLens (c :: s) = [] := by
    simp only [Regex.matchLens, hq]
    rfl
  unfold regex
  rw [Regex.matchLens, Regex.matchLens, hA, List.flatMap_nil, List.nil_append, Regex.matchLens]
  by_cases hsp : isSpace c = true
  · have hB : (Regex.cls (fun c => !isSpace c)).matchLens (c :: s) = [] := by
      simp only [Regex.matchLens, hsp]
      rfl
    rw [hB, if_pos hsp]
    rfl
  · have hB : (Regex.cls (fun c => !isSpace c)).matchLens (c :: s) = [1] := by
      simp only [Regex.matchLens]
      simp [hsp]
    rw [hB, if_neg hsp, List.flatMap_singleton, matchLens_star]
    rfl

theorem takeWhile_append_stop {p : UInt8 → Bool} (xs : GoString) (y : UInt8) (rest : GoString)
    (hxs : ∀ x ∈ xs, p x = true) (hy : p y = false) :
    (xs ++ y :: rest).takeWhile p = xs := by
  induction xs with
  | nil => simp [List.takeWhile_cons, hy]
  | cons x xs ih =>
    have hx : p x = true := hxs x (by simp)
    rw [List.cons_append, List.takeWhile_cons, if_pos hx,
      ih (fun z hz => hxs z (by simp [hz]))]

/-- At an opening quote that has a closing quote the pattern matches the
quoted text with both quotes. -/
theorem matchLens_head_quoted (inner rest : GoString) (hi : quoteByte ∉ inner) :
    (regex.matchLens (quoteByte :: (inner ++ quoteByte :: rest))).head? =
      some (1 + (inner.length + 1)) := by
  have htw : (inner ++ quoteByte :: rest).takeWhile (· != quoteByte) = inner := by
    apply takeWhile_append_stop
    · intro x hx
      have : x ≠ quoteByte := fun h => hi (h ▸ hx)
      simpa using this
    · simp
  have hA : (Regex.cls (· == quoteByte)).matchLens (quoteByte :: (inner ++ quoteByte :: rest))
      = [1] := by
    simp only [Regex.matchLens]
    simp
  have hC : (Regex.cls (· == quoteByte)).matchLens (quoteByte :: rest) = [1] := by
    simp only [Regex.matchLens]
    simp
  unfold regex
  rw [Regex.matchLens, Regex.matchLens, hA, List.flatMap_singleton, Regex.matchLens,
    matchLens_star]
  have hd : List.drop 1 (quoteByte :: (inner ++ quoteByte :: rest)) = inner ++ quoteByte :: rest :=
    rfl
  rw [hd, htw, List.flatMap_cons, List.drop_left, hC]
  rfl


theorem findAll_skip (re : Regex) (xs rest : GoString) :
    findAllStringSubmatch re (xs ++ rest) xs.length = findAllStringSubmatch re rest 0 := by
  induction xs with
  | nil => rfl
  | cons x xs ih =>
    rw [List.cons_append, List.length_cons, findAllStringSubmatch]
    exact ih

theorem findAll_cons_skip (re : Regex) (c : UInt8) (cs : GoString) (k : Nat) :
    findAllStringSubmatch re (c :: cs) (k + 1) = findAllStringSubmatch re cs k := by
  rw [findAllStringSubmatch]

theorem findAll_cons_none (re : Regex) (c : UInt8) (cs : GoString)
    (h : (re.matchLens (c :: cs)).head? = none) :
    findAllStringSubmatch re (c :: cs) 0 = findAllStringSubmatch re cs 0 := by
  rw [findAllStringSubmatch, h]

theorem findAll_cons_some (re : Regex) (c : UInt8) (cs : GoString) (n : Nat)
    (h : (re.matchLens (c :: cs)).head? = some (n + 1)) :
    findAllStringSubmatch re (c :: cs) 0 =
      [c :: cs.take n] :: findAllStringSubmatch re cs n := by
  rw [findAllStringSubmatch, h]
  rfl

theorem takeWhile_append_of_stop {p : UInt8 → Bool} (cs rest : GoString)
    (h : ∃ x ∈ cs, p x = false) : (cs ++ rest).takeWhile p = cs.takeWhile p := by
  induction cs with
  | nil => simp at h
  | cons c cs ih =>
    rw [List.cons_append, List.takeWhile_cons, List.takeWhile_cons]
    by_cases hc : p c = true
    · rw [if_pos hc, if_pos hc]
      obtain ⟨x, hx, hpx⟩ := h
      rcases List.mem_cons.mp hx with rfl | hx
      · rw [hc] at hpx; cases hpx
      · rw [ih ⟨x, hx, hpx⟩]
    · rw [if_neg hc, if_neg hc]

/-- Matching in a quote-free prefix that is empty or ends in whitespace does
not see what follows the prefix. -/
theorem findAll_append (pre rest : GoString) (k : Nat) (hk : k ≤ pre.length)
    (hq : quoteByte ∉ pre) (hlast : ∀ c, pre.getLast? = some c → isSpace c = true) :
    findAllStringSubmatch regex (pre ++ rest) k =
      findAllStringSubmatch regex pre k ++
        findAllStringSubmatch regex rest 0 := by
  induction pre generalizing k with
  | nil =>
    have : k = 0 := by simpa using hk
    subst this
    rfl
  | cons c cs ih =>
    have hqcs : quoteByte ∉ cs := fun h => hq (by simp [h])
    have hc : c ≠ quoteByte := fun h => hq (by simp [h])
    have hlastcs : ∀ x, cs.getLast? = some x → isSpace x = true := by
      intro x hx
      apply hlast x
      cases cs with
      | nil => simp at hx
      | cons d ds => rw [List.getLast?_cons_cons]; exact hx
    rw [List.cons_append]
    cases k with
    | succ j =>
      rw [findAll_cons_skip, findAll_cons_skip]
      exact ih j (by simpa using hk) hqcs hlastcs
    | zero =>
      by_cases hsp : isSpace c = true
      · have h1 := matchLens_head_nonquote c (cs ++ rest) hc
        have h2 := matchLens_head_nonquote c cs hc
        rw [if_pos hsp] at h1 h2
        rw [findAll_cons_none _ _ _ h1, findAll_cons_none _ _ _ h2]
        exact ih 0 (Nat.zero_le _) hqcs hlastcs
      · have hstop : ∃ x ∈ cs, (fun c => !isSpace c) x = false := by
          cases hcs : (c :: cs).getLast? with
          | none => simp at hcs
          | some x =>
            have hx := hlast x hcs
            have hmem : x ∈ c :: cs := List.mem_of_getLast?_eq_some hcs
            rcases List.mem_cons.mp hmem with rfl | hmem
            · exact absurd hx hsp
            · exact ⟨x, hmem, by simp [hx]⟩
        have h1 := matchLens_head_nonquote c (cs ++ rest) hc
        have h2 := matchLens_head_nonquote c cs hc
        rw [if_neg hsp, takeWhile_append_of_stop cs rest hstop, Nat.add_comm] at h1
        rw [if_neg hsp, Nat.add_comm] at h2
        have hle : (cs.takeWhile (fun c => !isSpace c)).length ≤ cs.length :=
          (List.takeWhile_sublist _).length_le
        rw [findAll_cons_some _ _ _ _ h1, findAll_cons_some _ _ _ _ h2,
          ih _ hle hqcs hlastcs, List.take_append_of_le_length hle]
        rfl

theorem foldl_slice_append {α β : Type} (f : α → β) (l : List α) (init : List β) :
    l.foldl (fun (acc : Slice β) m => acc.append (f m)) (.of init) = .of (init ++ l.map f) := by
  induction l generalizing init with
  | nil => simp
  | cons x xs ih =>
    rw [List.foldl_cons]
    show List.foldl _ (Slice.of (init ++ [f x])) xs = _
    rw [ih]
    simp

theorem buildAdditionalSuggestionList_eq (query : GoString) :
    buildAdditionalSuggestionList query =
      .of ((findAllStringSubmatch regex query 0).map (fun m => m.getD 0 [])) := by
  unfold buildAdditionalSuggestionList
  rw [foldl_slice_append]
  rfl

/-- C6 as stated fails: for the query `foo "bar baz"` the second token is
`"bar baz"` with its two quote characters, not `bar baz`. -/
theorem buildAdditionalSuggestionList_quoted_counterexample :
    buildAdditionalSuggestionList (ascii "foo \x22bar baz\x22") =
        .of [ascii "foo", ascii "\x22bar baz\x22"] ∧
      buildAdditionalSuggestionList (ascii "foo \x22bar baz\x22") ≠
        .of [ascii "foo", ascii "bar baz"] := by
  decide

/-- C6, amended: a double-quoted phrase is kept as one token that holds the
phrase with both quote characters.  For a query `pre ++ quote ++ inner ++ quote ++ post`
where `pre` has no quote and is empty or ends in whitespace and `inner` has
no quote, the tokens are those of `pre`, then the quoted phrase with its
quotes, then those of `post`. -/
theorem buildAdditionalSuggestionList_quoted (pre inner post : GoString)
    (hpre : quoteByte ∉ pre) (hlast : ∀ c, pre.getLast? = some c → isSpace c = true)
    (hinner : quoteByte ∉ inner) :
    buildAdditionalSuggestionList (pre ++ quoteByte :: (inner ++ quoteByte :: post)) =
      .of ((buildAdditionalSuggestionList pre).toList ++
        (quoteByte :: (inner ++ [quoteByte])) ::
          (buildAdditionalSuggestionList post).toList) := by
  simp only [buildAdditionalSuggestionList_eq, Slice.toList]
  have hm : (regex.matchLens (quoteByte :: (inner ++ quoteByte :: post))).head? =
      some ((inner ++ [quoteByte]).length + 1) := by
    rw [matchLens_head_quoted inner post hinner, List.length_append, Nat.add_comm]
    rfl
  rw [findAll_append pre _ 0 (Nat.zero_le _) hpre hlast, findAll_cons_some _ _ _ _ hm]
  have h1 : inner ++ quoteByte :: post = (inner ++ [quoteByte]) ++ post := by simp
  rw [h1, findAll_skip, List.take_left]
  simp

/-- C6, amended, at the query `foo "bar baz"`: the tokens `foo` and
`"bar baz"`. -/
theorem buildAdditionalSuggestionList_quoted_witness :
    buildAdditionalSuggestionList (ascii "foo \x22bar baz\x22") =
      .of [ascii "foo", ascii "\x22bar baz\x22"] :=
  buildAdditionalSuggestionList_quoted (ascii "foo ") (ascii "bar baz") []
    (by decide) (by decide) (by decide)


/-! ## `transform` -/

theorem Slice.appendAll_appendAll {α : Type} (s : Slice α) (xs ys : List α) :
    (s.appendAll xs).appendAll ys = s.appendAll (xs ++ ys) := by
  cases xs with
  | nil => rfl
  | cons x xs =>
    cases ys with
    | nil => simp [Slice.appendAll]
    | cons y ys => simp [Slice.appendAll, Slice.toList]

theorem Slice.append_eq_appendAll {α : Type} (s : Slice α) (x : α) :
    s.append x = s.appendAll [x] := rfl

theorem Slice.appendAll_of {α : Type} (xs ys : List α) :
    (Slice.of xs).appendAll ys = .of (xs ++ ys) := by
  cases ys with
  | nil => simp [Slice.appendAll]
  | cons y ys => rfl

theorem Slice.appendAll_nil {α : Type} [DecidableEq α] (ys : List α) :
    (Slice.nil : Slice α).appendAll ys = if ys = [] then Slice.nil else Slice.of ys := by
  cases ys with
  | nil => rfl
  | cons y ys => simp [Slice.appendAll, Slice.toList]

theorem foldl_items (f : esResponseHit → contentItem) (l : List esResponseHit)
    (sr : searchResponse) :
    l.foldl (fun sr doc => { sr with Items := sr.Items.append (f doc) }) sr =
      { sr with Items := sr.Items.appendAll (l.map f) } := by
  induction l generalizing sr with
  | nil => rfl
  | cons x xs ih =>
    rw [List.foldl_cons, ih, Slice.append_eq_appendAll, Slice.appendAll_appendAll]
    rfl

theorem foldl_contentTypes (f : esBucket → contentType) (l : List esBucket)
    (sr : searchResponse) :
    l.foldl (fun sr b => { sr with ContentTypes := sr.ContentTypes.append (f b) }) sr =
      { sr with ContentTypes := sr.ContentTypes.appendAll (l.map f) } := by
  induction l generalizing sr with
  | nil => rfl
  | cons x xs ih =>
    rw [List.foldl_cons, ih, Slice.append_eq_appendAll, Slice.appendAll_appendAll]
    rfl

theorem foldl_options (l : List esSearchSuggestOptions) (sr : searchResponse) :
    l.foldl (fun sr option => { sr with Suggestions := sr.Suggestions.append option.Text }) sr =
      { sr with Suggestions := sr.Suggestions.appendAll (l.map (·.Text)) } := by
  induction l generalizing sr with
  | nil => rfl
  | cons x xs ih =>
    rw [List.foldl_cons, ih, Slice.append_eq_appendAll, Slice.appendAll_appendAll]
    rfl

theorem foldl_suggest (l : List esSearchSuggest) (sr : searchResponse) :
    l.foldl
        (fun sr suggest =>
          suggest.Options.foldl
            (fun sr option => { sr with Suggestions := sr.Suggestions.append option.Text }) sr)
        sr =
      { sr with
        Suggestions := sr.Suggestions.appendAll (l.flatMap (fun g => g.Options.map (·.Text))) } := by
  induction l generalizing sr with
  | nil => rfl
  | cons x xs ih =>
    rw [List.foldl_cons, foldl_options, ih, Slice.appendAll_appendAll]
    rfl

theorem transformStep_eq (sr : searchResponse) (took : Int) (r : esResponseItem) :
    transformStep (sr, took) r =
      ({ sr with
          Items := sr.Items.appendAll (r.Hits.Hits.map buildContentItem)
          ContentTypes :=
            sr.ContentTypes.appendAll (r.Aggregations.DocCounts.Buckets.map buildContentTypes)
          Suggestions :=
            sr.Suggestions.appendAll
              (r.Suggest.SearchSuggest.flatMap (fun g => g.Options.map (fun o => o.Text))) },
        wrapInt (took + r.Took)) := by
  unfold transformStep
  simp only [foldl_items, foldl_contentTypes, foldl_suggest]

theorem wrapInt_add_wrapInt (a b : Int) : wrapInt (wrapInt a + b) = wrapInt (a + b) := by
  unfold wrapInt
  omega

theorem wrapInt_of_inRange (x : Int) (h1 : -2 ^ 63 ≤ x) (h2 : x < 2 ^ 63) : wrapInt x = x := by
  unfold wrapInt
  omega

theorem foldl_transformStep (rs : List esResponseItem) (sr : searchResponse) (took : Int) :
    rs.foldl transformStep (sr, took) =
      ({ sr with
          Items := sr.Items.appendAll ((allHits rs).map buildContentItem)
          ContentTypes := sr.ContentTypes.appendAll ((allBuckets rs).map buildContentTypes)
          Suggestions := sr.Suggestions.appendAll (allOptionTexts rs) },
        rs.foldl (fun t r => wrapInt (t + r.Took)) took) := by
  induction rs generalizing sr took with
  | nil =>
    simp [allHits, allBuckets, allOptionTexts, Slice.appendAll]
  | cons r rs ih =>
    rw [List.foldl_cons, transformStep_eq, ih]
    simp only [Slice.appendAll_appendAll, allHits, allBuckets, allOptionTexts,
      List.flatMap_cons, List.map_append, List.foldl_cons]

theorem foldl_wrapInt (rs : List esResponseItem) (took : Int) :
    rs.foldl (fun t r => wrapInt (t + r.Took)) (wrapInt took) =
      wrapInt (took + (rs.map (fun r => r.Took)).sum) := by
  induction rs generalizing took with
  | nil => simp
  | cons r rs ih =>
    rw [List.foldl_cons, wrapInt_add_wrapInt, ih, List.map_cons, List.sum_cons, add_assoc]

theorem transform_eq (r : esResponseItem) (rest : List esResponseItem) :
    transform { Responses := r :: rest } =
      some
        { Count := r.Hits.Total
          Took := wrapInt (((r :: rest).map (fun r => r.Took)).sum)
          Items := .of ((allHits (r :: rest)).map buildContentItem)
          ContentTypes := .of ((allBuckets (r :: rest)).map buildContentTypes)
          Suggestions :=
            if allOptionTexts (r :: rest) = [] then .nil else .of (allOptionTexts (r :: rest))
          AdditionSuggestions := .nil } := by
  have h0 : (0 : Int) = wrapInt 0 := by decide
  unfold transform
  simp only [List.getElem?_cons_zero, foldl_transformStep, Slice.appendAll_of,
    Slice.appendAll_nil, List.nil_append]
  rw [h0, foldl_wrapInt, zero_add]


/-- C7: with at least one sub-response, `Count` is the hit total of the first
sub-response, whatever the later sub-responses hold; a single sub-response
with hit total `t` gives `Count = t`. -/
theorem transform_count (first : esResponseItem) (rest : List esResponseItem) :
    (transform { Responses := first :: rest }).map (fun sr => sr.Count) =
        some first.Hits.Total ∧
      (transform { Responses := [first] }).map (fun sr => sr.Count) =
        some first.Hits.Total := by
  rw [transform_eq, transform_eq]
  exact ⟨rfl, rfl⟩

/-- C8 as stated fails: two sub-responses with elapsed time `2^62` each give
`Took = -2^63`, not `2^63`. -/
theorem transform_took_counterexample :
    (transform { Responses :=
        [{ Took := 4611686018427387904, Hits := { Total := 0, Hits := [] },
           Aggregations := { DocCounts := { Buckets := [] } },
           Suggest := { SearchSuggest := [] } },
         { Took := 4611686018427387904, Hits := { Total := 0, Hits := [] },
           Aggregations := { DocCounts := { Buckets := [] } },
           Suggest := { SearchSuggest := [] } }] }).map (fun sr => sr.Took) =
        some (-9223372036854775808) ∧
      (-9223372036854775808 : Int) ≠ 4611686018427387904 + 4611686018427387904 := by
  rw [transform_eq]
  decide

/-- C8, amended: `Took` is the sum `e1 + ... + eN` of the elapsed times reduced
to the range of Go's 64-bit `int` (two's complement wrap-around); it is the
exact sum whenever that sum lies in `[-2^63, 2^63)`. -/
theorem transform_took (first : esResponseItem) (rest : List esResponseItem) :
    (transform { Responses := first :: rest }).map (fun sr => sr.Took) =
        some (wrapInt (((first :: rest).map (fun r => r.Took)).sum)) ∧
      (-2 ^ 63 ≤ ((first :: rest).map (fun r => r.Took)).sum →
        ((first :: rest).map (fun r => r.Took)).sum < 2 ^ 63 →
        (transform { Responses := first :: rest }).map (fun sr => sr.Took) =
          some (((first :: rest).map (fun r => r.Took)).sum)) := by
  rw [transform_eq]
  refine ⟨rfl, fun h1 h2 => ?_⟩
  rw [wrapInt_of_inRange _ h1 h2]
  rfl

/-- C8, amended, at two sub-responses with elapsed times 3 and 4: `Took = 7`. -/
theorem transform_took_witness :
    (transform { Responses :=
        [{ Took := 3, Hits := { Total := 0, Hits := [] },
           Aggregations := { DocCounts := { Buckets := [] } },
           Suggest := { SearchSuggest := [] } },
         { Took := 4, Hits := { Total := 0, Hits := [] },
           Aggregations := { DocCounts := { Buckets := [] } },
           Suggest := { SearchSuggest := [] } }] }).map (fun sr => sr.Took) = some 7 :=
  (transform_took
    { Took := 3, Hits := { Total := 0, Hits := [] },
      Aggregations := { DocCounts := { Buckets := [] } },
      Suggest := { SearchSuggest := [] } }
    [{ Took := 4, Hits := { Total := 0, Hits := [] },
       Aggregations := { DocCounts := { Buckets := [] } },
       Suggest := { SearchSuggest := [] } }]).2 (by decide) (by decide)

/-- C9: with at least one sub-response, `Items` is `buildContentItem` applied
to every hit of every sub-response in order (as many items as hits, the k-th
item carrying the `Type` and `URI` of the k-th hit and a non-nil match
record), `ContentTypes` is every bucket in order mapped to
`(type = key, count = doc_count)`, and `Suggestions` is every option text in
sub-response, group, option order, or nil when there is no option. -/
theorem transform_lists (first : esResponseItem) (rest : List esResponseItem) :
    ∃ sr, transform { Responses := first :: rest } = some sr ∧
      sr.Items = .of ((first :: rest).flatMap (fun r => r.Hits.Hits.map buildContentItem)) ∧
      sr.Items.toList.length = ((first :: rest).map (fun r => r.Hits.Hits.length)).sum ∧
      (∀ (k : Nat) (hit : esResponseHit), (allHits (first :: rest))[k]? = some hit →
        ∃ item : contentItem, sr.Items.toList[k]? = some item ∧ item.«Type» = hit.Source.«Type» ∧
          item.URI = hit.Source.URI ∧ item.Matches = some (buildMatches hit.Highlight)) ∧
      sr.ContentTypes = .of ((first :: rest).flatMap (fun r =>
        r.Aggregations.DocCounts.Buckets.map
          (fun b => ({ «Type» := b.Key, Count := b.Count } : contentType)))) ∧
      sr.Suggestions =
        (if (first :: rest).flatMap (fun r =>
            r.Suggest.SearchSuggest.flatMap (fun g => g.Options.map (fun o => o.Text))) = []
          then Slice.nil
          else Slice.of ((first :: rest).flatMap (fun r =>
            r.Suggest.SearchSuggest.flatMap (fun g => g.Options.map (fun o => o.Text))))) := by
  refine ⟨_, transform_eq first rest, ?_, ?_, ?_, ?_, ?_⟩
  · simp only [allHits, List.map_flatMap]
  · simp only [Slice.toList, allHits, List.length_map, List.length_flatMap]
    rfl
  · intro k hit hk
    refine ⟨buildContentItem hit, ?_, rfl, rfl, rfl⟩
    simp only [Slice.toList, List.getElem?_map, hk, Option.map_some']
  · simp only [allBuckets, List.map_flatMap]
    rfl
  · rfl

/-- C10: once the payload has decoded, `TransformSearchResponse` fails with
the error "Response to be transformed contained 0 items" exactly when the
decoded list of sub-responses is empty; it never panics, and `transform`
reads out of range only on an empty list, with which it is not called. -/
theorem TransformSearchResponse_empty_iff
    (jsonUnmarshal : GoString → Except GoError esResponse)
    (jsonMarshal : searchResponse → Except GoError GoString)
    (responseData query : GoString) (source : esResponse)
    (hdecode : jsonUnmarshal responseData = .ok source) :
    (TransformSearchResponse jsonUnmarshal jsonMarshal responseData query =
        .err (.new "Response to be transformed contained 0 items") ↔
      source.Responses.length = 0) ∧
    TransformSearchResponse jsonUnmarshal jsonMarshal responseData query ≠ .panic ∧
    (transform source = none ↔ source.Responses.length = 0) := by
  obtain ⟨rs⟩ := source
  cases rs with
  | nil =>
    refine ⟨?_, ?_, ?_⟩
    · simp [TransformSearchResponse, hdecode]
    · simp [TransformSearchResponse, hdecode]
    · simp [transform]
  | cons r rest =>
    have ht := transform_eq r rest
    refine ⟨?_, ?_, ?_⟩
    · simp only [TransformSearchResponse, hdecode, ht, List.length_cons]
      rw [if_neg (by omega)]
      constructor
      · intro h
        split at h <;> cases h
      · intro h
        omega
    · simp only [TransformSearchResponse, hdecode, ht, List.length_cons]
      rw [if_neg (by omega)]
      intro h
      split at h <;> cases h
    · simp [ht]

/-- C10 at a decoder that yields an empty list of sub-responses. -/
theorem TransformSearchResponse_empty_iff_witness :
    TransformSearchResponse (fun _ => .ok { Responses := [] }) (fun _ => .ok []) [] [] =
      .err (.new "Response to be transformed contained 0 items") :=
  (TransformSearchResponse_empty_iff (fun _ => .ok { Responses := [] }) (fun _ => .ok [])
    [] [] { Responses := [] } rfl).1.mpr rfl

/-! ## The additional suggestions -/

/-- C11: with at least one sub-response, the response handed to the encoder is
the one `transform` built with `AdditionSuggestions` set to
`buildAdditionalSuggestionList query` when `Count` is zero and left nil when
it is not; no other field changes. -/
theorem TransformSearchResponse_additional
    (jsonUnmarshal : GoString → Except GoError esResponse)
    (jsonMarshal : searchResponse → Except GoError GoString)
    (responseData query : GoString) (first : esResponseItem) (rest : List esResponseItem)
    (hdecode : jsonUnmarshal responseData = .ok { Responses := first :: rest }) :
    ∃ sr : searchResponse,
      transform { Responses := first :: rest } = some sr ∧
      sr.AdditionSuggestions = Slice.nil ∧
      TransformSearchResponse jsonUnmarshal jsonMarshal responseData query =
        (match jsonMarshal
            { sr with
              AdditionSuggestions :=
                if sr.Count = 0 then buildAdditionalSuggestionList query else Slice.nil } with
          | .error err => .err (.wrap err "Failed to encode transformed response")
          | .ok transformedData => .ok transformedData) := by
  refine ⟨_, transform_eq first rest, rfl, ?_⟩
  simp only [TransformSearchResponse, hdecode, transform_eq, List.length_cons]
  rw [if_neg (by omega)]
  by_cases hc : first.Hits.Total = 0
  · simp only [hc, if_true]
  · simp only [hc, if_false]

/-- C11 at one sub-response without hits and the query `no match`, with an
encoder that writes the additional suggestions one after the other. -/
theorem TransformSearchResponse_additional_witness :
    TransformSearchResponse
        (fun _ => .ok { Responses :=
          [{ Took := 1, Hits := { Total := 0, Hits := [] },
             Aggregations := { DocCounts := { Buckets := [] } },
             Suggest := { SearchSuggest := [] } }] })
        (fun sr => .ok sr.AdditionSuggestions.toList.flatten) [] (ascii "no match") =
      .ok (ascii "nomatch") := by
  obtain ⟨sr, h1, _, h3⟩ := TransformSearchResponse_additional
    (fun _ => .ok { Responses :=
      [{ Took := 1, Hits := { Total := 0, Hits := [] },
         Aggregations := { DocCounts := { Buckets := [] } },
         Suggest := { SearchSuggest := [] } }] })
    (fun sr => .ok sr.AdditionSuggestions.toList.flatten) [] (ascii "no match")
    { Took := 1, Hits := { Total := 0, Hits := [] },
      Aggregations := { DocCounts := { Buckets := [] } },
      Suggest := { SearchSuggest := [] } } [] rfl
  rw [h3]
  rw [transform_eq] at h1
  cases h1
  decide

/-! ## `buildMatches` -/

theorem Slice.toList_appendAll {α : Type} (s : Slice α) (xs : List α) :
    (s.appendAll xs).toList = s.toList ++ xs := by
  cases xs with
  | nil => simp [Slice.appendAll]
  | cons x xs => rfl

theorem foldl_append_eq_appendAll {α β : Type} (f : α → β) (l : List α) (s : Slice β) :
    l.foldl (fun (acc : Slice β) m => acc.append (f m)) s = s.appendAll (l.map f) := by
  induction l generalizing s with
  | nil => rfl
  | cons x xs ih =>
    rw [List.foldl_cons, ih, Slice.append_eq_appendAll, Slice.appendAll_appendAll]
    rfl

theorem foldl_appendAll {α β : Type} (f : α → List β) (l : List α) (s : Slice β) :
    l.foldl (fun (acc : Slice β) m => acc.appendAll (f m)) s = s.appendAll (l.flatMap f) := by
  induction l generalizing s with
  | nil => rfl
  | cons x xs ih =>
    rw [List.foldl_cons, ih, Slice.appendAll_appendAll, List.flatMap_cons]

theorem collectMatches_toList (highlights : List GoString) :
    (collectMatches highlights).toList = highlights.flatMap (fun m => (findMatches m).1) := by
  unfold collectMatches
  rw [foldl_appendAll, Slice.toList_appendAll]
  rfl

theorem collectKeywordMatches_toList (highlights : List GoString) :
    (collectKeywordMatches highlights).toList =
      highlights.flatMap (fun m =>
        (findMatches m).1.map (fun md => { md with Value := (findMatches m).2 })) := by
  unfold collectKeywordMatches
  simp only [foldl_append_eq_appendAll]
  rw [foldl_appendAll, Slice.toList_appendAll]
  rfl

/-- C12 as stated fails for the keywords field: from the fragment
`"<strong>red</strong>"` it holds the span `{Value: "red", Start: 1, End: 3}`,
while `findMatches` returns the span `{Start: 1, End: 3}` with an empty
`Value`. -/
theorem buildMatches_fields_counterexample :
    findMatches (ascii "<strong>red</strong>") =
        ([{ Value := [], Start := 1, End := 3 }], ascii "red") ∧
      (buildMatches
          { DescriptionTitle := none, DescriptionEdition := none, DescriptionSummary := none,
            DescriptionMeta := none,
            DescriptionKeywords := some [ascii "<strong>red</strong>"],
            DescriptionDatasetID := none }).Description.Keywords =
        some (.of [{ Value := ascii "red", Start := 1, End := 3 }]) ∧
      (some (Slice.of [{ Value := ascii "red", Start := 1, End := 3 }]) :
          Option (Slice matchDetails)).map Slice.toList ≠
        some ([ascii "<strong>red</strong>"].flatMap (fun f => (findMatches f).1)) := by
  have h : findMatches (ascii "<strong>red</strong>") =
      ([{ Value := [], Start := 1, End := 3 }], ascii "red") :=
    findMatches_one_span [] (ascii "red") [] (by decide) (by decide) (by decide)
  refine ⟨h, ?_, ?_⟩
  · simp only [buildMatches, Option.map_some', collectKeywordMatches, List.foldl_cons,
      List.foldl_nil, h]
    rfl
  · simp only [List.flatMap_cons, List.flatMap_nil, h]
    decide

/-- C12, amended: each of the fields Title, Edition, Summary, MetaDescription
and DatasetID is unset when the map has no entry for it, and otherwise holds
the concatenation, in fragment order, of the span lists `findMatches` returns
for its fragments; Keywords is unset when the map has no entry, and otherwise
holds that concatenation with the `Value` of every span replaced by the
de-marked text of its fragment. -/
theorem buildMatches_fields (hl : esHighlight) :
    (buildMatches hl).Description.Title.map Slice.toList =
        hl.DescriptionTitle.map (fun fs => fs.flatMap (fun f => (findMatches f).1)) ∧
      (buildMatches hl).Description.Edition.map Slice.toList =
        hl.DescriptionEdition.map (fun fs => fs.flatMap (fun f => (findMatches f).1)) ∧
      (buildMatches hl).Description.Summary.map Slice.toList =
        hl.DescriptionSummary.map (fun fs => fs.flatMap (fun f => (findMatches f).1)) ∧
      (buildMatches hl).Description.MetaDescription.map Slice.toList =
        hl.DescriptionMeta.map (fun fs => fs.flatMap (fun f => (findMatches f).1)) ∧
      (buildMatches hl).Description.DatasetID.map Slice.toList =
        hl.DescriptionDatasetID.map (fun fs => fs.flatMap (fun f => (findMatches f).1)) ∧
      (buildMatches hl).Description.Keywords.map Slice.toList =
        hl.DescriptionKeywords.map (fun fs => fs.flatMap (fun f =>
          (findMatches f).1.map (fun md => { md with Value := (findMatches f).2 }))) := by
  simp only [buildMatches, Option.map_map]
  refine ⟨?_, ?_, ?_, ?_, ?_, ?_⟩
  · cases hl.DescriptionTitle <;> simp [collectMatches_toList]
  · cases hl.DescriptionEdition <;> simp [collectMatches_toList]
  · cases hl.DescriptionSummary <;> simp [collectMatches_toList]
  · cases hl.DescriptionMeta <;> simp [collectMatches_toList]
  · cases hl.DescriptionDatasetID <;> simp [collectMatches_toList]
  · cases hl.DescriptionKeywords <;> simp [collectKeywordMatches_toList]

/-! ## Induction over the matches of a fragment -/

theorem not_infix_take_of_stringsIndex {s substr : GoString} {i : Nat}
    (hne : substr ≠ []) (h : stringsIndex s substr = some i) : ¬ substr <:+: s.take i := by
  obtain ⟨hi, _, hfirst⟩ := (stringsIndex_eq_some_iff s substr i).mp h
  rintro ⟨p, q, hpq⟩
  have hlen := congrArg List.length hpq
  have hpos : 0 < substr.length := List.length_pos.mpr hne
  simp only [List.length_append, List.length_take] at hlen
  have hk : p.length < i := by omega
  apply hfirst p.length hk
  have hs : s = p ++ substr ++ q ++ s.drop i := by
    rw [hpq, List.take_append_drop]
  rw [hs, List.append_assoc, List.append_assoc, List.drop_left]
  exact List.prefix_append _ _

/-- A fragment either yields no span, or it is `a ++ "<strong>" ++ m ++ "</strong>" ++ b`
with the first start marker after `a` and the first end marker after `m`. -/
theorem findMatches_step (s : GoString) :
    (findMatches s).1 = [] ∨
      ∃ a m b, s = a ++ startHighlightTag ++ (m ++ endHighlightTag ++ b) ∧
        ¬ startHighlightTag <:+: a ∧ ¬ endHighlightTag <:+: m := by
  cases h1 : stringsIndex s startHighlightTag with
  | none => exact Or.inl (by rw [findMatches_of_none h1])
  | some i =>
    cases h2 : stringsIndex (s.drop (i + startHighlightTag.length)) endHighlightTag with
    | none => exact Or.inl (by rw [findMatches_of_unmatched h1 h2])
    | some e =>
      refine Or.inr ⟨s.take i, (s.drop (i + startHighlightTag.length)).take e,
        (s.drop (i + startHighlightTag.length)).drop (e + endHighlightTag.length), ?_, ?_, ?_⟩
      · rw [← stringsIndex_split h2]
        exact stringsIndex_split h1
      · exact not_infix_take_of_stringsIndex (by decide) h1
      · exact not_infix_take_of_stringsIndex (by decide) h2

/-- Induction over the matches of a fragment, from the last one back. -/
theorem findMatches_induction {P : GoString → Prop}
    (hbase : ∀ s, (findMatches s).1 = [] → P s)
    (hstep : ∀ a m b, ¬ startHighlightTag <:+: a → ¬ endHighlightTag <:+: m → P b →
      P (a ++ startHighlightTag ++ (m ++ endHighlightTag ++ b)))
    (s : GoString) : P s := by
  suffices h : ∀ n, ∀ t : GoString, t.length = n → P t from h _ s rfl
  intro n
  induction n using Nat.strong_induction_on with
  | _ n ih =>
    intro t hn
    rcases findMatches_step t with h | ⟨a, m, b, rfl, ha, hm⟩
    · exact hbase t h
    · refine hstep a m b ha hm (ih b.length ?_ b rfl)
      have h8 : startHighlightTag.length = 8 := by decide
      rw [← hn]
      simp only [List.length_append]
      omega

theorem findMatches_value (s : GoString) : ∀ md ∈ (findMatches s).1, md.Value = [] := by
  induction s using findMatches_induction with
  | hbase s h => intro md hmd; rw [h] at hmd; cases hmd
  | hstep a m b ha hm ih =>
    intro md hmd
    rw [findMatches_marked a m b ha hm] at hmd
    rcases List.mem_cons.mp hmd with rfl | hmd
    · rfl
    · obtain ⟨rm, hrm, rfl⟩ := List.mem_map.mp hmd
      exact ih rm hrm

/-- C13: the spans that `buildMatches` produces from the keywords fragments are
those of `findMatches`, fragment by fragment, each with `Start` and `End` as
returned and `Value` set to the whole de-marked text of its fragment; every
span of the five other fields has an empty `Value`. -/
theorem buildMatches_values (hl : esHighlight) :
    (∀ fs sl, hl.DescriptionKeywords = some fs →
      (buildMatches hl).Description.Keywords = some sl →
      sl.toList = fs.flatMap (fun f => (findMatches f).1.map (fun md =>
        ({ Value := (findMatches f).2, Start := md.Start, End := md.End } : matchDetails)))) ∧
    (∀ sl md, ((buildMatches hl).Description.Title = some sl ∨
        (buildMatches hl).Description.Edition = some sl ∨
        (buildMatches hl).Description.Summary = some sl ∨
        (buildMatches hl).Description.MetaDescription = some sl ∨
        (buildMatches hl).Description.DatasetID = some sl) →
      md ∈ sl.toList → md.Value = []) := by
  have hval : ∀ fs md, md ∈ (collectMatches fs).toList → md.Value = [] := by
    intro fs md hmd
    rw [collectMatches_toList] at hmd
    obtain ⟨f, _, hf⟩ := List.mem_flatMap.mp hmd
    exact findMatches_value f md hf
  have hfield : ∀ (src : Option (List GoString)) sl md,
      src.map collectMatches = some sl → md ∈ sl.toList → md.Value = [] := by
    intro src sl md hsl hmd
    cases src with
    | none => cases hsl
    | some fs =>
      simp only [Option.map_some', Option.some.injEq] at hsl
      subst hsl
      exact hval fs md hmd
  constructor
  · intro fs sl hfs hsl
    simp only [buildMatches, hfs, Option.map_some', Option.some.injEq] at hsl
    subst hsl
    exact collectKeywordMatches_toList fs
  · intro sl md hsl hmd
    simp only [buildMatches] at hsl
    rcases hsl with h | h | h | h | h
    · exact hfield _ sl md h hmd
    · exact hfield _ sl md h hmd
    · exact hfield _ sl md h hmd
    · exact hfield _ sl md h hmd
    · exact hfield _ sl md h hmd

/-- C13 at the keywords fragment `"<strong>red</strong>"`: one keyword span,
with `Value` the de-marked fragment `"red"`. -/
theorem buildMatches_values_witness :
    (buildMatches
        { DescriptionTitle := none, DescriptionEdition := none, DescriptionSummary := none,
          DescriptionMeta := none, DescriptionKeywords := some [ascii "<strong>red</strong>"],
          DescriptionDatasetID := none }).Description.Keywords =
        some (.of [{ Value := ascii "red", Start := 1, End := 3 }]) ∧
      [({ Value := ascii "red", Start := 1, End := 3 } : matchDetails)] =
        [ascii "<strong>red</strong>"].flatMap (fun f => (findMatches f).1.map (fun md =>
          ({ Value := (findMatches f).2, Start := md.Start, End := md.End } : matchDetails))) := by
  have h : findMatches (ascii "<strong>red</strong>") =
      ([{ Value := [], Start := 1, End := 3 }], ascii "red") :=
    findMatches_one_span [] (ascii "red") [] (by decide) (by decide) (by decide)
  have hk : (buildMatches
      { DescriptionTitle := none, DescriptionEdition := none, DescriptionSummary := none,
        DescriptionMeta := none, DescriptionKeywords := some [ascii "<strong>red</strong>"],
        DescriptionDatasetID := none }).Description.Keywords =
      some (.of [{ Value := ascii "red", Start := 1, End := 3 }]) := by
    simp only [buildMatches, Option.map_some', collectKeywordMatches, List.foldl_cons,
      List.foldl_nil, h]
    rfl
  exact ⟨hk, (buildMatches_values _).1 _ _ rfl hk⟩

/-! ## The encoded match record -/

/-- C14 as stated fails: for a highlight map that has only the title entry
`["<strong>a</strong>"]`, the encoded match record holds `"summary": null`
next to the title. -/
theorem marshalMatches_title_only_counterexample :
    marshalMatches (buildMatches
        { DescriptionTitle := some [ascii "<strong>a</strong>"], DescriptionEdition := none,
          DescriptionSummary := none, DescriptionMeta := none, DescriptionKeywords := none,
          DescriptionDatasetID := none }) =
      .object
        [("description",
          .object
            [("summary", .null),
             ("title", .array [.object [("start", .number 1), ("end", .number 1)]])])] := by
  have h : findMatches (ascii "<strong>a</strong>") =
      ([{ Value := [], Start := 1, End := 1 }], ascii "a") :=
    findMatches_one_span [] (ascii "a") [] (by decide) (by decide) (by decide)
  simp only [buildMatches, Option.map_some', Option.map_none', collectMatches, List.foldl_cons,
    List.foldl_nil, h]
  rfl

theorem collectMatches_eq (highlights : List GoString) :
    collectMatches highlights =
      if highlights.flatMap (fun m => (findMatches m).1) = [] then Slice.nil
      else Slice.of (highlights.flatMap (fun m => (findMatches m).1)) := by
  unfold collectMatches
  rw [foldl_appendAll, Slice.appendAll_nil]

/-- C14, amended: for a highlight map that has an entry only for
`description.title`, the encoded match record holds exactly two members, in
this order: `summary`, written as `null` (its tag has no `omitempty`), and
`title`, written as the array of the title spans (as `null` when the title
fragments hold no span); the four fields `edition`, `meta_description`,
`keywords` and `dataset_id` are left out. -/
theorem marshalMatches_title_only (hl : esHighlight) (fs : List GoString)
    (htitle : hl.DescriptionTitle = some fs) (hedition : hl.DescriptionEdition = none)
    (hsummary : hl.DescriptionSummary = none) (hmeta : hl.DescriptionMeta = none)
    (hkeywords : hl.DescriptionKeywords = none) (hdataset : hl.DescriptionDatasetID = none) :
    marshalMatches (buildMatches hl) =
      .object
        [("description",
          .object
            [("summary", .null),
             ("title",
               if fs.flatMap (fun f => (findMatches f).1) = [] then Json.null
               else Json.array
                 ((fs.flatMap (fun f => (findMatches f).1)).map marshalMatchDetails))])] := by
  simp only [marshalMatches, buildMatches, htitle, hedition, hsummary, hmeta, hkeywords,
    hdataset, Option.map_some', Option.map_none', collectMatches_eq]
  by_cases hnil : fs.flatMap (fun f => (findMatches f).1) = []
  · simp only [hnil, if_true]
    rfl
  · simp only [hnil, if_false]
    rfl

/-- C14, amended, at a highlight map whose only entry is the title fragment
`"plain title"`, which holds no span: `summary` and `title` are both written
as `null`. -/
theorem marshalMatches_title_only_witness :
    marshalMatches (buildMatches
        { DescriptionTitle := some [ascii "plain title"], DescriptionEdition := none,
          DescriptionSummary := none, DescriptionMeta := none, DescriptionKeywords := none,
          DescriptionDatasetID := none }) =
      .object [("description", .object [("summary", .null), ("title", .null)])] := by
  have h := marshalMatches_title_only
    { DescriptionTitle := some [ascii "plain title"], DescriptionEdition := none,
      DescriptionSummary := none, DescriptionMeta := none, DescriptionKeywords := none,
      DescriptionDatasetID := none }
    [ascii "plain title"] rfl rfl rfl rfl rfl rfl
  have hf : findMatches (ascii "plain title") = ([], ascii "plain title") :=
    findMatches_of_no_start _ (by decide)
  simpa only [List.flatMap_cons, List.flatMap_nil, hf, List.append_nil, if_true] using h

/-! ## Offsets, order and termination of `findMatches` -/

theorem findMatches_start_end (s : GoString) :
    ∀ md ∈ (findMatches s).1, 1 ≤ md.Start ∧ md.Start ≤ md.End + 1 := by
  induction s using findMatches_induction with
  | hbase s h => intro md hmd; rw [h] at hmd; cases hmd
  | hstep a m b ha hm ih =>
    intro md hmd
    rw [findMatches_marked a m b ha hm] at hmd
    rcases List.mem_cons.mp hmd with rfl | hmd
    · constructor <;> simp only <;> omega
    · obtain ⟨rm, hrm, rfl⟩ := List.mem_map.mp hmd
      have := ih rm hrm
      simp only [shiftSpan]
      omega

/-- C15: every span that `findMatches` returns, the shifted ones included, has
`Start >= 0` and `End >= 0`. -/
theorem findMatches_nonneg (s : GoString) (md : matchDetails)
    (hmd : md ∈ (findMatches s).1) : 0 ≤ md.Start ∧ 0 ≤ md.End := by
  have := findMatches_start_end s md hmd
  omega

/-- C15 at the second, shifted span of `"abc<strong>def</strong>ghi<strong>x</strong>"`. -/
theorem findMatches_nonneg_witness :
    ({ Value := [], Start := 10, End := 10 } : matchDetails) ∈
        (findMatches (ascii "abc<strong>def</strong>ghi<strong>x</strong>")).1 ∧
      (0 : Int) ≤ 10 ∧ (0 : Int) ≤ 10 := by
  have hmem : ({ Value := [], Start := 10, End := 10 } : matchDetails) ∈
      (findMatches (ascii "abc<strong>def</strong>ghi<strong>x</strong>")).1 := by
    have h2 : findMatches (ascii "ghi<strong>x</strong>") =
        ([{ Value := [], Start := 4, End := 4 }], ascii "ghix") :=
      findMatches_one_span (ascii "ghi") (ascii "x") [] (by decide) (by decide) (by decide)
    have h1 := findMatches_marked (ascii "abc") (ascii "def") (ascii "ghi<strong>x</strong>")
      (by decide) (by decide)
    rw [h2] at h1
    have h0 : ascii "abc<strong>def</strong>ghi<strong>x</strong>" =
        ascii "abc" ++ startHighlightTag ++
          (ascii "def" ++ endHighlightTag ++ ascii "ghi<strong>x</strong>") := by decide
    rw [h0, h1]
    decide
  exact ⟨hmem, findMatches_nonneg _ _ hmem⟩

/-- C19: in the list that `findMatches` returns, the `End` of a span is
strictly less than the `Start` of the span that follows it. -/
theorem findMatches_ordered (s : GoString) :
    List.Chain' (fun earlier later : matchDetails => earlier.End < later.Start)
      (findMatches s).1 := by
  induction s using findMatches_induction with
  | hbase s h => rw [h]; exact List.chain'_nil
  | hstep a m b ha hm ih =>
    rw [findMatches_marked a m b ha hm]
    rw [List.chain'_cons']
    constructor
    · intro y hy
      rw [List.head?_map] at hy
      cases hb : (findMatches b).1.head? with
      | none => rw [hb] at hy; cases hy
      | some rm =>
        rw [hb] at hy
        simp only [Option.map_some', Option.mem_def, Option.some.injEq] at hy
        subst hy
        have := (findMatches_start_end b rm (List.mem_of_mem_head? hb)).1
        simp only [shiftSpan]
        omega
    · rw [List.chain'_map]
      refine List.Chain'.imp ?_ ih
      intro x y hxy
      simp only [shiftSpan]
      omega

/-- C16: when `findMatches` recurses, the remainder it recurses on is at least
17 bytes shorter than its input; without a start marker, or without an end
marker after the first start marker, it returns at once with no span; and the
number of spans, one per recursive call, is at most `len(s) / 17`. -/
theorem findMatches_terminates (s : GoString) :
    (∀ start e, stringsIndex s startHighlightTag = some start →
      stringsIndex (s.drop (start + startHighlightTag.length)) endHighlightTag = some e →
      ((s.drop (start + startHighlightTag.length)).drop (e + endHighlightTag.length)).length
          + 17 ≤ s.length ∧
        (findMatches s).1.length =
          1 + (findMatches ((s.drop (start + startHighlightTag.length)).drop
            (e + endHighlightTag.length))).1.length) ∧
    (stringsIndex s startHighlightTag = none → findMatches s = ([], s)) ∧
    (∀ start, stringsIndex s startHighlightTag = some start →
      stringsIndex (s.drop (start + startHighlightTag.length)) endHighlightTag = none →
      (findMatches s).1 = []) ∧
    17 * (findMatches s).1.length ≤ s.length := by
  have h8 : startHighlightTag.length = 8 := by decide
  have h9 : endHighlightTag.length = 9 := by decide
  refine ⟨?_, findMatches_of_none, ?_, ?_⟩
  · intro start e h1 h2
    have b1 := congrArg List.length (stringsIndex_split h1)
    have b2 := congrArg List.length (stringsIndex_split h2)
    have hi := ((stringsIndex_eq_some_iff _ _ _).mp h1).1
    have he := ((stringsIndex_eq_some_iff _ _ _).mp h2).1
    constructor
    · simp only [List.length_append, List.length_take, List.length_drop] at b1 b2 ⊢
      omega
    · rw [findMatches_of_matched h1 h2]
      simp only [List.length_cons, List.length_map]
      omega
  · intro start h1 h2
    rw [findMatches_of_unmatched h1 h2]
  · induction s using findMatches_induction with
    | hbase s h => rw [h]; simp
    | hstep a m b ha hm ih =>
      rw [findMatches_marked a m b ha hm]
      simp only [List.length_cons, List.length_map, List.length_append]
      omega

/-- C16 at `"ab<strong>cd</strong>e<strong>f</strong>"`, whose first start
marker is at index 2 and whose first end marker is 2 bytes after it: the
remainder is at least 17 bytes shorter than the input. -/
theorem findMatches_terminates_witness :
    (((ascii "ab<strong>cd</strong>e<strong>f</strong>").drop
        (2 + startHighlightTag.length)).drop (2 + endHighlightTag.length)).length + 17 ≤
      (ascii "ab<strong>cd</strong>e<strong>f</strong>").length :=
  ((findMatches_terminates (ascii "ab<strong>cd</strong>e<strong>f</strong>")).1
    2 2 (by decide) (by decide)).1

/-! ## The offset convention of the spans -/

/-- The matched substring of the pair number `k` does begin at `pieceIndex`
in the text without markers. -/
theorem plainText_at_pieceIndex (pieces : List (GoString × GoString)) (tail : GoString)
    (k : Nat) (p : GoString × GoString) (hk : pieces[k]? = some p) :
    ((plainText pieces tail).drop (pieceIndex pieces k)).take p.2.length = p.2 := by
  induction pieces generalizing k with
  | nil => simp at hk
  | cons q rest ih =>
    obtain ⟨t, m⟩ := q
    cases k with
    | zero =>
      simp only [List.getElem?_cons_zero, Option.some.injEq] at hk
      subst hk
      simp only [plainText, pieceIndex, List.drop_left, List.take_left]
    | succ k =>
      simp only [List.getElem?_cons_succ] at hk
      have := ih k hk
      simp only [plainText, pieceIndex]
      rw [← List.append_assoc t m, ← List.length_append, List.drop_append]
      exact this

theorem findMatches_assemble_cons (t m : GoString) (rest : List (GoString × GoString))
    (tail : GoString) (ht : ¬ startHighlightTag <:+: t) (hm : ¬ endHighlightTag <:+: m) :
    findMatches (assemble ((t, m) :: rest) tail) =
      ({ Value := [], Start := (t.length : Int) + 1,
         End := (t.length : Int) + (m.length : Int) } ::
          (findMatches (assemble rest tail)).1.map
            (shiftSpan ((t.length : Int) + (m.length : Int))),
        t ++ (m ++ (findMatches (assemble rest tail)).2)) :=
  findMatches_marked t m (assemble rest tail) ht hm

/-- What `findMatches` returns for a fragment given by its pieces, when no
`t` holds a start marker and no `m` an end marker. -/
theorem findMatches_assemble (pieces : List (GoString × GoString)) (tail : GoString)
    (hp : ∀ p ∈ pieces, ¬ startHighlightTag <:+: p.1 ∧ ¬ endHighlightTag <:+: p.2) :
    (findMatches (assemble pieces tail)).2 = plainText pieces (findMatches tail).2 ∧
    (findMatches (assemble pieces tail)).1.length =
      pieces.length + (findMatches tail).1.length ∧
    ∀ (i : Nat) (p : GoString × GoString) (sp : matchDetails), pieces[i]? = some p →
      (findMatches (assemble pieces tail)).1[i]? = some sp →
      sp.Start = (pieceIndex pieces i : Int) + 1 ∧
      sp.End = (pieceIndex pieces i : Int) + (p.2.length : Int) ∧
      sp.End ≤ ((plainText pieces (findMatches tail).2).length : Int) ∧
      ((plainText pieces (findMatches tail).2).take sp.End.toNat).drop (sp.Start.toNat - 1)
        = p.2 := by
  induction pieces with
  | nil =>
    refine ⟨rfl, by simp [assemble], ?_⟩
    intro i p sp hi
    simp at hi
  | cons q rest ih =>
    obtain ⟨t, m⟩ := q
    have hq := hp (t, m) (by simp)
    obtain ⟨ih1, ih2, ih3⟩ := ih (fun p hp2 => hp p (by simp [hp2]))
    rw [findMatches_assemble_cons t m rest tail hq.1 hq.2]
    refine ⟨by simp only [plainText, ih1], ?_, ?_⟩
    · simp only [List.length_cons, List.length_map, ih2]
      omega
    · intro i p sp hi hsp
      cases i with
      | zero =>
        simp only [List.getElem?_cons_zero, Option.some.injEq] at hi hsp
        subst hi
        subst hsp
        simp only [pieceIndex, plainText]
        refine ⟨trivial, trivial, ?_, ?_⟩
        · simp only [List.length_append]
          omega
        · have h1 : ((t.length : Int) + (m.length : Int)).toNat = (t ++ m).length := by
            simp only [List.length_append]; omega
          have h2 : ((t.length : Int) + 1).toNat - 1 = t.length := by omega
          rw [h1, h2, ← List.append_assoc, List.take_left, List.drop_left]
      | succ i =>
        simp only [List.getElem?_cons_succ, List.getElem?_map, Option.map_eq_some'] at hi hsp
        obtain ⟨sp0, hsp0, rfl⟩ := hsp
        obtain ⟨e1, e2, e3, e4⟩ := ih3 i p sp0 hi hsp0
        simp only [pieceIndex, plainText, shiftSpan]
        refine ⟨by rw [e1]; push_cast; omega, by rw [e2]; push_cast; omega, ?_, ?_⟩
        · simp only [List.length_append]
          push_cast
          omega
        · have h1 : (sp0.End + ((t.length : Int) + (m.length : Int))).toNat =
              (t ++ m).length + sp0.End.toNat := by
            simp only [List.length_append]; omega
          have h2 : (sp0.Start + ((t.length : Int) + (m.length : Int))).toNat - 1 =
              (t ++ m).length + (sp0.Start.toNat - 1) := by
            simp only [List.length_append]; omega
          rw [h1, h2, ← List.append_assoc, List.take_append, List.drop_append]
          exact e4

/-- Every fragment is made of such pieces: the text before each start marker
that `findMatches` matches, the text between that marker and its end marker,
and a tail in which nothing more is matched. -/
theorem exists_pieces (s : GoString) :
    ∃ (pieces : List (GoString × GoString)) (tail : GoString),
      s = assemble pieces tail ∧
      (∀ p ∈ pieces, ¬ startHighlightTag <:+: p.1 ∧ ¬ endHighlightTag <:+: p.2) ∧
      (findMatches tail).1 = [] := by
  induction s using findMatches_induction with
  | hbase s h => exact ⟨[], s, rfl, by simp, h⟩
  | hstep a m b ha hm ih =>
    obtain ⟨pieces, tail, rfl, hp, ht⟩ := ih
    refine ⟨(a, m) :: pieces, tail, rfl, ?_, ht⟩
    intro p hmem
    rcases List.mem_cons.mp hmem with rfl | hmem
    · exact ⟨ha, hm⟩
    · exact hp p hmem

/-- C18: for `t0 ++ "<strong>" ++ m1 ++ "</strong>" ++ t1 ++ ... ++ "<strong>" ++ mn ++ "</strong>" ++ tn`
with no start marker in any `ti` and no end marker in any `mi`, `findMatches`
returns the text `t0 ++ m1 ++ t1 ++ ... ++ mn ++ tn` and exactly `n` spans, and
the i-th span has `1 <= Start`, `End <= len(fs)`, `End - Start + 1 = len(mi)`
and `fs[Start-1 : End] = mi`. -/
theorem findMatches_spans_locate (pieces : List (GoString × GoString)) (tn : GoString)
    (hp : ∀ p ∈ pieces, ¬ startHighlightTag <:+: p.1 ∧ ¬ endHighlightTag <:+: p.2)
    (htn : ¬ startHighlightTag <:+: tn) :
    (findMatches (assemble pieces tn)).2 = plainText pieces tn ∧
    (findMatches (assemble pieces tn)).1.length = pieces.length ∧
    ∀ (i : Nat) (p : GoString × GoString) (sp : matchDetails), pieces[i]? = some p →
      (findMatches (assemble pieces tn)).1[i]? = some sp →
      1 ≤ sp.Start ∧ sp.End ≤ ((plainText pieces tn).length : Int) ∧
      sp.End - sp.Start + 1 = (p.2.length : Int) ∧
      ((plainText pieces tn).take sp.End.toNat).drop (sp.Start.toNat - 1) = p.2 := by
  obtain ⟨h1, h2, h3⟩ := findMatches_assemble pieces tn hp
  rw [findMatches_of_no_start tn htn] at h1 h2 h3
  refine ⟨h1, by simpa using h2, ?_⟩
  intro i p sp hi hsp
  obtain ⟨e1, e2, e3, e4⟩ := h3 i p sp hi hsp
  exact ⟨by omega, e3, by omega, e4⟩

/-- C18 at `"abc<strong>def</strong>ghi<strong>x</strong>"`: the second span
`{Start: 10, End: 10}` locates `x` in `"abcdefghix"`. -/
theorem findMatches_spans_locate_witness :
    (findMatches (ascii "abc<strong>def</strong>ghi<strong>x</strong>")).1[1]? =
        some { Value := [], Start := 10, End := 10 } ∧
      ((ascii "abcdefghix").take 10).drop (10 - 1) = ascii "x" := by
  have h0 : ascii "abc<strong>def</strong>ghi<strong>x</strong>" =
      assemble [(ascii "abc", ascii "def"), (ascii "ghi", ascii "x")] [] := by decide
  have hsp : (findMatches (ascii "abc<strong>def</strong>ghi<strong>x</strong>")).1[1]? =
      some { Value := [], Start := 10, End := 10 } := by
    have h2 : findMatches (ascii "ghi<strong>x</strong>") =
        ([{ Value := [], Start := 4, End := 4 }], ascii "ghix") :=
      findMatches_one_span (ascii "ghi") (ascii "x") [] (by decide) (by decide) (by decide)
    have h1 := findMatches_marked (ascii "abc") (ascii "def") (ascii "ghi<strong>x</strong>")
      (by decide) (by decide)
    rw [h2] at h1
    have h3 : ascii "abc<strong>def</strong>ghi<strong>x</strong>" =
        ascii "abc" ++ startHighlightTag ++
          (ascii "def" ++ endHighlightTag ++ ascii "ghi<strong>x</strong>") := by decide
    rw [h3, h1]
    decide
  refine ⟨hsp, ?_⟩
  rw [h0] at hsp
  exact ((findMatches_spans_locate
    [(ascii "abc", ascii "def"), (ascii "ghi", ascii "x")] [] (by decide) (by decide)).2.2
      1 (ascii "ghi", ascii "x") { Value := [], Start := 10, End := 10 } rfl hsp).2.2.2

/-- C17 as stated fails: there is no fragment in which the first span has the
`+1` bias and a later span does not.  Whatever the pieces of the fragment,
the `Start` of the span number `k` is one more than the 0-based index of its
matched substring in the de-marked text. -/
theorem findMatches_start_bias_counterexample :
    ¬ ∃ (pieces : List (GoString × GoString)) (tail : GoString) (k : Nat)
        (p : GoString × GoString) (first later : matchDetails),
      (∀ q ∈ pieces, ¬ startHighlightTag <:+: q.1 ∧ ¬ endHighlightTag <:+: q.2) ∧
      0 < k ∧ pieces[k]? = some p ∧
      (findMatches (assemble pieces tail)).1[0]? = some first ∧
      (findMatches (assemble pieces tail)).1[k]? = some later ∧
      first.Start = (pieceIndex pieces 0 : Int) + 1 ∧
      later.Start ≠ (pieceIndex pieces k : Int) + 1 := by
  rintro ⟨pieces, tail, k, p, first, later, hp, _, hk, _, hlater, _, hne⟩
  exact hne ((findMatches_assemble pieces tail hp).2.2 k p later hk hlater).1

/-- C17, amended: the spans of a fragment follow one convention.  Every
fragment is `t0 ++ "<strong>" ++ m1 ++ "</strong>" ++ ... ++ tail` for the
matches `findMatches` makes in it; the de-marked text is
`t0 ++ m1 ++ ...` followed by the de-marked tail, there is one span per
matched substring, and the `Start` of the span number `k`, first or later, is
one more than the 0-based byte index at which its matched substring lies in
the de-marked text. -/
theorem findMatches_start_bias (s : GoString) :
    ∃ (pieces : List (GoString × GoString)) (tail : GoString),
      s = assemble pieces tail ∧
      (∀ p ∈ pieces, ¬ startHighlightTag <:+: p.1 ∧ ¬ endHighlightTag <:+: p.2) ∧
      (findMatches s).2 = plainText pieces (findMatches tail).2 ∧
      (findMatches s).1.length = pieces.length ∧
      ∀ (k : Nat) (p : GoString × GoString) (sp : matchDetails), pieces[k]? = some p →
        (findMatches s).1[k]? = some sp →
        sp.Start = (pieceIndex pieces k : Int) + 1 ∧
        ((findMatches s).2.drop (pieceIndex pieces k)).take p.2.length = p.2 := by
  obtain ⟨pieces, tail, rfl, hp, ht⟩ := exists_pieces s
  obtain ⟨h1, h2, h3⟩ := findMatches_assemble pieces tail hp
  refine ⟨pieces, tail, rfl, hp, h1, by rw [h2, ht]; rfl, ?_⟩
  intro k p sp hk hsp
  refine ⟨(h3 k p sp hk hsp).1, ?_⟩
  rw [h1]
  exact plainText_at_pieceIndex pieces _ k p hk

/-! ## The tokenizer on queries without quotes -/

theorem dropWhile_head_false {p : UInt8 → Bool} {l r : GoString} {d : UInt8}
    (h : l.dropWhile p = d :: r) : p d = false := by
  induction l with
  | nil => simp at h
  | cons x xs ih =>
    rw [List.dropWhile_cons] at h
    by_cases hx : p x = true
    · rw [if_pos hx] at h; exact ih h
    · rw [if_neg hx] at h
      simp only [List.cons.injEq] at h
      rw [← h.1]
      simpa using hx

theorem findAll_nil (re : Regex) (k : Nat) : findAllStringSubmatch re [] k = [] := by
  cases k <;> rfl

/-- The tokenizer and the maximal runs agree on a query without quotes. -/
theorem findAll_eq_nonSpaceRuns (query : GoString) (hq : quoteByte ∉ query) :
    (findAllStringSubmatch regex query 0).map (fun m => m.getD 0 []) = nonSpaceRuns query := by
  suffices h : ∀ n, ∀ q : GoString, q.length = n → quoteByte ∉ q →
      (findAllStringSubmatch regex q 0).map (fun m => m.getD 0 []) = nonSpaceRuns q from
    h _ query rfl hq
  intro n
  induction n using Nat.strong_induction_on with
  | _ n ih =>
    intro q hn hq
    cases q with
    | nil => simp [findAll_nil, nonSpaceRuns]
    | cons c cs =>
      have hc : c ≠ quoteByte := fun h => hq (by simp [h])
      have hcs : quoteByte ∉ cs := fun h => hq (by simp [h])
      have hm := matchLens_head_nonquote c cs hc
      by_cases hsp : isSpace c = true
      · rw [if_pos hsp] at hm
        rw [findAll_cons_none _ _ _ hm, ih cs.length (by simp [← hn]) cs rfl hcs]
        simp [nonSpaceRuns, List.splitOnP_cons, hsp]
      · rw [if_neg hsp, Nat.add_comm] at hm
        rw [findAll_cons_some _ _ _ _ hm]
        have hsplit := List.takeWhile_append_dropWhile (fun c => !isSpace c) cs
        have htw : ∀ x ∈ cs.takeWhile (fun c => !isSpace c), ¬ isSpace x = true := by
          intro x hx
          simpa using List.mem_takeWhile_imp hx
        generalize cs.takeWhile (fun c => !isSpace c) = tw at hsplit htw ⊢
        cases hdw : cs.dropWhile (fun c => !isSpace c) with
        | nil =>
          rw [hdw, List.append_nil] at hsplit
          subst hsplit
          have h1 : findAllStringSubmatch regex tw tw.length = [] := by
            have := findAll_skip regex tw []
            rw [List.append_nil] at this
            rw [this]
            rfl
          rw [h1, List.take_length]
          simp [nonSpaceRuns, List.splitOnP_cons, hsp, List.splitOnP_eq_single isSpace tw htw]
        | cons d dw =>
          have hd : isSpace d = true := by simpa using dropWhile_head_false hdw
          rw [hdw] at hsplit
          clear hdw
          subst hsplit
          have hdq : d ≠ quoteByte := fun h => hcs (by simp [h])
          have hdwq : quoteByte ∉ dw := fun h => hcs (by simp [h])
          have hmd : (regex.matchLens (d :: dw)).head? = none := by
            rw [matchLens_head_nonquote d dw hdq, if_pos hd]
          have hlen : dw.length < n := by
            simp only [List.length_cons, List.length_append] at hn
            omega
          rw [findAll_skip, findAll_cons_none _ _ _ hmd, List.take_left, List.map_cons,
            ih dw.length hlen dw rfl hdwq]
          simp [nonSpaceRuns, List.splitOnP_cons, hsp, List.splitOnP_first isSpace tw htw d hd dw]

theorem splitOnP_piece_no_sep (p : UInt8 → Bool) (l : GoString) :
    ∀ t ∈ l.splitOnP p, (∀ c ∈ t, p c = false) ∧ t <:+: l := by
  induction l with
  | nil => simp
  | cons x xs ih =>
    intro t ht
    rw [List.splitOnP_cons] at ht
    by_cases hx : p x = true
    · rw [if_pos hx] at ht
      rcases List.mem_cons.mp ht with rfl | ht
      · exact ⟨by simp, List.nil_infix⟩
      · exact ⟨(ih t ht).1, (ih t ht).2.trans (List.suffix_cons x xs).isInfix⟩
    · rw [if_neg hx] at ht
      cases hs : xs.splitOnP p with
      | nil => rw [hs] at ht; simp at ht
      | cons hd tl =>
        rw [hs] at ht ih
        simp only [List.modifyHead_cons, List.mem_cons] at ht
        rcases ht with rfl | ht
        · have h1 := ih hd (by simp)
          refine ⟨?_, ?_⟩
          · intro c hcm
            rcases List.mem_cons.mp hcm with rfl | hcm
            · simpa using hx
            · exact h1.1 c hcm
          · have hpre : hd <+: xs := by
              have := List.splitOnP_spec p xs
              rw [hs] at this
              cases hf : (List.map (fun x => [x]) (List.filter p xs) ++ [[]]) with
              | nil => simp at hf
              | cons g gs =>
                rw [hf] at this
                simp only [List.zipWith_cons_cons, List.flatten_cons] at this
                exact ⟨g ++ (List.zipWith (· ++ ·) tl gs).flatten, by
                  rw [← List.append_assoc]; exact this⟩
            exact ((List.prefix_cons_inj x).mpr hpre).isInfix
        · exact ⟨(ih t (by simp [ht])).1,
            (ih t (by simp [ht])).2.trans (List.suffix_cons x xs).isInfix⟩

theorem nonSpaceRuns_nil : nonSpaceRuns [] = [] := by
  simp [nonSpaceRuns]

theorem nonSpaceRuns_cons_space (c : UInt8) (cs : GoString) (hc : isSpace c = true) :
    nonSpaceRuns (c :: cs) = nonSpaceRuns cs := by
  simp [nonSpaceRuns, List.splitOnP_cons, hc]

theorem nonSpaceRuns_cons_run (c : UInt8) (tw rest : GoString) (hc : ¬ isSpace c = true)
    (htw : ∀ x ∈ tw, ¬ isSpace x = true)
    (hrest : rest = [] ∨ ∃ d dw, rest = d :: dw ∧ isSpace d = true) :
    nonSpaceRuns (c :: (tw ++ rest)) = (c :: tw) :: nonSpaceRuns rest := by
  rcases hrest with rfl | ⟨d, dw, rfl, hd⟩
  · simp [nonSpaceRuns, List.splitOnP_cons, hc, List.splitOnP_eq_single isSpace tw htw]
  · rw [nonSpaceRuns_cons_space d dw hd]
    simp [nonSpaceRuns, List.splitOnP_cons, hc, List.splitOnP_first isSpace tw htw d hd dw]

/-- The maximal runs lie in the text one after the other, with nothing but
whitespace before, between and after them, and at least one whitespace byte
between two of them. -/
theorem nonSpaceRuns_layout (query : GoString) :
    ∃ (pairs : List (GoString × GoString)) (last : GoString),
      joinGaps pairs last = query ∧
      pairs.map (fun p => p.2) = nonSpaceRuns query ∧
      (∀ p ∈ pairs, ∀ c ∈ p.1, isSpace c = true) ∧
      (∀ c ∈ last, isSpace c = true) ∧
      (∀ p ∈ pairs.tail, p.1 ≠ []) ∧
      (∀ c cs p, query = c :: cs → isSpace c = true → pairs.head? = some p → p.1 ≠ []) := by
  suffices h : ∀ n, ∀ q : GoString, q.length = n →
      ∃ (pairs : List (GoString × GoString)) (last : GoString),
        joinGaps pairs last = q ∧
        pairs.map (fun p => p.2) = nonSpaceRuns q ∧
        (∀ p ∈ pairs, ∀ c ∈ p.1, isSpace c = true) ∧
        (∀ c ∈ last, isSpace c = true) ∧
        (∀ p ∈ pairs.tail, p.1 ≠ []) ∧
        (∀ c cs p, q = c :: cs → isSpace c = true → pairs.head? = some p → p.1 ≠ []) from
    h _ query rfl
  intro n
  induction n using Nat.strong_induction_on with
  | _ n ih =>
    intro q hn
    cases q with
    | nil =>
      refine ⟨[], [], rfl, by rw [nonSpaceRuns_nil]; rfl, by simp, by simp, by simp, ?_⟩
      intro c cs p h
      cases h
    | cons c cs =>
      by_cases hsp : isSpace c = true
      · obtain ⟨pairs, last, h1, h2, h3, h4, h5, _⟩ := ih cs.length (by simp [← hn]) cs rfl
        cases pairs with
        | nil =>
          refine ⟨[], c :: last, ?_, ?_, by simp, ?_, by simp, ?_⟩
          · simp only [joinGaps] at h1 ⊢
            rw [h1]
          · rw [nonSpaceRuns_cons_space c cs hsp, ← h2]
          · intro x hx
            rcases List.mem_cons.mp hx with rfl | hx
            · exact hsp
            · exact h4 x hx
          · intro _ _ p _ _ hp
            cases hp
        | cons p0 ps =>
          obtain ⟨g, tok⟩ := p0
          refine ⟨(c :: g, tok) :: ps, last, ?_, ?_, ?_, h4, h5, ?_⟩
          · simp only [joinGaps] at h1 ⊢
            rw [List.cons_append, h1]
          · rw [nonSpaceRuns_cons_space c cs hsp, ← h2]
            rfl
          · intro p hp x hx
            rcases List.mem_cons.mp hp with rfl | hp
            · rcases List.mem_cons.mp hx with rfl | hx
              · exact hsp
              · exact h3 (g, tok) (by simp) x hx
            · exact h3 p (by simp [hp]) x hx
          · intro _ _ p _ _ hp
            simp only [List.head?_cons, Option.some.injEq] at hp
            subst hp
            simp
      · have hsplit := List.takeWhile_append_dropWhile (fun c => !isSpace c) cs
        have htw : ∀ x ∈ cs.takeWhile (fun c => !isSpace c), ¬ isSpace x = true := by
          intro x hx
          simpa using List.mem_takeWhile_imp hx
        generalize cs.takeWhile (fun c => !isSpace c) = tw at hsplit htw
        have hrest : cs.dropWhile (fun c => !isSpace c) = [] ∨
            ∃ d dw, cs.dropWhile (fun c => !isSpace c) = d :: dw ∧ isSpace d = true := by
          cases hdw : cs.dropWhile (fun c => !isSpace c) with
          | nil => exact Or.inl rfl
          | cons d dw => exact Or.inr ⟨d, dw, rfl, by simpa using dropWhile_head_false hdw⟩
        generalize cs.dropWhile (fun c => !isSpace c) = rest at hsplit hrest
        subst hsplit
        have hlen : rest.length < n := by
          simp only [List.length_cons, List.length_append] at hn
          omega
        obtain ⟨pairs, last, h1, h2, h3, h4, h5, h6⟩ := ih rest.length hlen rest rfl
        refine ⟨([], c :: tw) :: pairs, last, ?_, ?_, ?_, h4, ?_, ?_⟩
        · simp only [joinGaps, h1, List.nil_append, List.cons_append]
        · rw [nonSpaceRuns_cons_run c tw rest hsp htw hrest, ← h2]
          rfl
        · intro p hp x hx
          rcases List.mem_cons.mp hp with rfl | hp
          · simp at hx
          · exact h3 p hp x hx
        · intro p hp
          simp only [List.tail_cons] at hp
          cases pairs with
          | nil => simp at hp
          | cons p0 ps =>
            rcases List.mem_cons.mp hp with rfl | hp
            · rcases hrest with rfl | ⟨d, dw, rfl, hd⟩
              · rw [nonSpaceRuns_nil] at h2
                simp at h2
              · exact h6 d dw p rfl hd rfl
            · exact h5 p (by simpa using hp)
        · intro x xs p hq hx _
          simp only [List.cons.injEq] at hq
          rw [← hq.1] at hx
          exact absurd hx hsp

/-- C20: for a query without a double quote, `buildAdditionalSuggestionList`
returns a non-nil list holding exactly the maximal runs of non-whitespace
bytes of the query from left to right.  Every token is non-empty, holds no
whitespace and is a substring of the query; the query is the tokens in order
with nothing but whitespace before, between and after them, and at least one
whitespace byte between two tokens; for an empty or all-whitespace query the
list is empty. -/
theorem buildAdditionalSuggestionList_runs (query : GoString) (hq : quoteByte ∉ query) :
    buildAdditionalSuggestionList query = .of (nonSpaceRuns query) ∧
    (∀ tok ∈ (buildAdditionalSuggestionList query).toList,
      tok ≠ [] ∧ (∀ c ∈ tok, isSpace c = false) ∧ tok <:+: query) ∧
    (∃ (pairs : List (GoString × GoString)) (last : GoString),
      joinGaps pairs last = query ∧
      pairs.map (fun p => p.2) = (buildAdditionalSuggestionList query).toList ∧
      (∀ p ∈ pairs, ∀ c ∈ p.1, isSpace c = true) ∧
      (∀ c ∈ last, isSpace c = true) ∧
      (∀ p ∈ pairs.tail, p.1 ≠ [])) ∧
    ((∀ c ∈ query, isSpace c = true) → buildAdditionalSuggestionList query = .of []) := by
  have heq : buildAdditionalSuggestionList query = .of (nonSpaceRuns query) := by
    rw [buildAdditionalSuggestionList_eq, findAll_eq_nonSpaceRuns query hq]
  refine ⟨heq, ?_, ?_, ?_⟩
  · intro tok htok
    rw [heq] at htok
    simp only [Slice.toList, nonSpaceRuns, List.mem_filter] at htok
    obtain ⟨hmem, hne⟩ := htok
    have := splitOnP_piece_no_sep isSpace query tok hmem
    refine ⟨?_, this.1, this.2⟩
    intro h
    rw [h] at hne
    simp at hne
  · obtain ⟨pairs, last, h1, h2, h3, h4, h5, _⟩ := nonSpaceRuns_layout query
    exact ⟨pairs, last, h1, by rw [heq]; exact h2, h3, h4, h5⟩
  · intro hall
    rw [heq]
    congr 1
    simp only [nonSpaceRuns, List.filter_eq_nil_iff]
    intro t ht
    have h1 := (splitOnP_piece_no_sep isSpace query t ht)
    cases t with
    | nil => simp
    | cons x xs =>
      have hx : x ∈ query := h1.2.subset (by simp)
      have := h1.1 x (by simp)
      rw [hall x hx] at this
      cases this

/-- C20 at the query `the  quick\tfox `: the tokens `the`, `quick`, `fox`. -/
theorem buildAdditionalSuggestionList_runs_witness :
    buildAdditionalSuggestionList (ascii "the  quick\tfox ") =
      .of [ascii "the", ascii "quick", ascii "fox"] :=
  (buildAdditionalSuggestionList_runs (ascii "the  quick\tfox ") (by decide)).1

/-! ## Extracting again from the de-marked text -/

theorem mem_of_marker_within {c : UInt8} {tl l : GoString} (h : (c :: tl) <:+: l) : c ∈ l :=
  h.subset (List.mem_cons_self c tl)

theorem no_startTag_of_no_openAngle {l : GoString} (h : openAngle ∉ l) :
    ¬ startHighlightTag <:+: l := by
  rw [startHighlightTag_eq]
  exact fun hin => h (mem_of_marker_within hin)

theorem no_endTag_of_no_openAngle {l : GoString} (h : openAngle ∉ l) :
    ¬ endHighlightTag <:+: l := by
  rw [endHighlightTag_eq]
  exact fun hin => h (mem_of_marker_within hin)

theorem no_openAngle_plainText (pieces : List (GoString × GoString)) (tn : GoString)
    (hp : ∀ p ∈ pieces, openAngle ∉ p.1 ∧ openAngle ∉ p.2) (htn : openAngle ∉ tn) :
    openAngle ∉ plainText pieces tn := by
  induction pieces with
  | nil => exact htn
  | cons q rest ih =>
    obtain ⟨t, m⟩ := q
    have hq := hp (t, m) (by simp)
    have hrest := ih (fun p hmem => hp p (by simp [hmem]))
    simp only [plainText, List.mem_append, not_or]
    exact ⟨hq.1, hq.2, hrest⟩

/-- C5, amended: for a fragment
`t0 ++ "<strong>" ++ m1 ++ "</strong>" ++ t1 ++ ... ++ "<strong>" ++ mn ++ "</strong>" ++ tn`
in which no `ti` and no `mi` holds the byte `<`, `findMatches` returns the
de-marked text `fs = t0 ++ m1 ++ t1 ++ ... ++ mn ++ tn`, and `findMatches fs`
returns an empty span list and `fs` unchanged. -/
theorem findMatches_again (pieces : List (GoString × GoString)) (tn : GoString)
    (hp : ∀ p ∈ pieces, openAngle ∉ p.1 ∧ openAngle ∉ p.2) (htn : openAngle ∉ tn) :
    (findMatches (assemble pieces tn)).2 = plainText pieces tn ∧
      findMatches (findMatches (assemble pieces tn)).2 =
        ([], (findMatches (assemble pieces tn)).2) := by
  have hparse : ∀ p ∈ pieces,
      ¬ startHighlightTag <:+: p.1 ∧ ¬ endHighlightTag <:+: p.2 :=
    fun p hmem => ⟨no_startTag_of_no_openAngle (hp p hmem).1,
      no_endTag_of_no_openAngle (hp p hmem).2⟩
  have hfs := (findMatches_assemble pieces tn hparse).1
  rw [findMatches_of_no_start tn (no_startTag_of_no_openAngle htn)] at hfs
  refine ⟨hfs, ?_⟩
  rw [hfs]
  exact findMatches_of_no_start _
    (no_startTag_of_no_openAngle (no_openAngle_plainText pieces tn hp htn))

/-- C5, amended, at `"abc<strong>def</strong>ghi<strong>x</strong>"`: the
de-marked text is `"abcdefghix"`, from which nothing more is extracted. -/
theorem findMatches_again_witness :
    (findMatches (ascii "abc<strong>def</strong>ghi<strong>x</strong>")).2 =
        ascii "abcdefghix" ∧
      findMatches (findMatches (ascii "abc<strong>def</strong>ghi<strong>x</strong>")).2 =
        ([], (findMatches (ascii "abc<strong>def</strong>ghi<strong>x</strong>")).2) :=
  findMatches_again [(ascii "abc", ascii "def"), (ascii "ghi", ascii "x")] []
    (by decide) (by decide)

end Transformer
